import Mathlib

/-! Shallow embedding of the tui-treelistview core: the widget state, the
visibility engine, mark propagation, snapshot/restore, the edit executor and
the column-width allocator, translated from `src/state.rs`, `src/model.rs`,
`src/edit.rs`, `src/action.rs` and `src/columns.rs`.

Modelling conventions:
* `FxHashSet`/`FxHashMap` are modelled as duplicate-free lists / association
  lists; only membership, insert, remove, retain, iterate-and-collect are
  used by the source, and all are order-insensitive at the set level.
* The source performs unguarded depth-first recursion (it requires the
  caller's model to be a genuine cycle-free tree); here every such recursion
  takes an explicit fuel argument.  On a real tree any fuel larger than the
  tree height makes the fuel-exhaustion branch unreachable.
* Memoization in `subtree_has_match` is dropped (it only caches values of a
  pure recursive function); the memo of `compute_effective_mark` is kept,
  because which ids end up in the memo is observable through
  `ensure_mark_cache`.
* `u16` quantities in `columns.rs` are `Nat` with explicit saturation at
  65535 where the source uses `saturating_add`; `usize` is `Nat`
  (`saturating_sub` is Nat subtraction). -/

namespace TreeListView

/-- Selection/scroll part of `ratatui::widgets::TableState` that the engine
reads and writes: selected row, selected column, scroll offset. -/
structure TableState where
  selected : Option Nat
  selected_column : Option Nat
  offset : Nat
deriving DecidableEq

/-- A visible node row with metadata used for rendering and navigation
(`VisibleNode` in state.rs). -/
structure VisibleNode (α : Type) where
  id : α
  level : Nat
  parent : Option α
  has_children : Bool
  is_tail_stack : List Bool
deriving DecidableEq

/-- Widget state (`TreeListViewState` in state.rs): expansion edges,
selection, visibility and mark caches, dirty flags. -/
structure TreeListViewState (α : Type) where
  list_state : TableState
  expanded : List (Option α × α)
  visible_nodes : List (VisibleNode α)
  visible_index : List (α × Nat)
  dirty : Bool
  manual_marked : List α
  effective_marked : List α
  marks_dirty : Bool
  draw_lines : Bool
deriving DecidableEq

/-- Snapshot of state (`TreeListViewSnapshot` in state.rs). -/
structure TreeListViewSnapshot (α : Type) where
  expanded : List (Option α × α)
  manual_marked : List α
  selected : Option Nat
  selected_column : Option Nat
  offset : Nat
  draw_lines : Bool
deriving DecidableEq

/-- Read-only tree contract (`TreeModel` in model.rs), as a record of
operations over a caller-owned model value of type `μ`. -/
structure TreeModelOps (μ α : Type) where
  root : μ → Option α
  children : μ → α → List α
  contains : μ → α → Bool

/-- Optional edit interface (`TreeEdit` in edit.rs); mutating methods become
functions returning the updated model. -/
structure TreeEditOps (μ α : Type) extends TreeModelOps μ α where
  is_root : μ → α → Bool
  move_child_up : μ → α → α → μ × Bool
  move_child_down : μ → α → α → μ × Bool
  remove_child : μ → α → α → μ
  delete_node : μ → α → μ
  add_child : μ → α → α → μ

/-- Configuration for filtered rendering (`TreeFilterConfig` in model.rs). -/
structure TreeFilterConfig where
  enabled : Bool
  auto_expand : Bool
deriving DecidableEq

/-- `TreeFilterConfig::disabled`. -/
def TreeFilterConfig.disabledCfg : TreeFilterConfig := ⟨false, false⟩

/-- `TreeFilterConfig::enabled`. -/
def TreeFilterConfig.enabledCfg : TreeFilterConfig := ⟨true, true⟩

/-- Actions a user or application can initiate (`TreeAction` in action.rs). -/
inductive TreeAction (C : Type) where
  | ReorderUp
  | ReorderDown
  | SelectPrev
  | SelectNext
  | SelectParent
  | SelectChild
  | ToggleRecursive
  | ToggleNode
  | ExpandAll
  | CollapseAll
  | AddChild
  | EditNode
  | DetachNode
  | DeleteNode
  | YankNode
  | PasteNode
  | ToggleGuides
  | ToggleMark
  | SelectFirst
  | SelectLast
  | Custom (c : C)

variable {α : Type} [DecidableEq α] {μ : Type} {C : Type}

/-- Insertion into a hash set modelled on lists: no-op when present. -/
def setInsert (l : List α) (a : α) : List α :=
  if a ∈ l then l else a :: l

/-- Association-list lookup (model of `FxHashMap::get`). -/
def alookup : List (α × Nat) → α → Option Nat
  | [], _ => none
  | (k, v) :: rest, x => if k = x then some v else alookup rest x

/-- Association-list lookup for the boolean memo of the mark engine. -/
def blookup : List (α × Bool) → α → Option Bool
  | [], _ => none
  | (k, v) :: rest, x => if k = x then some v else blookup rest x

/-- Insert-or-replace for an association list (model of `HashMap::insert`). -/
def insertReplace : List (α × Nat) → α → Nat → List (α × Nat)
  | [], k, v => [(k, v)]
  | (k', v') :: rest, k, v =>
    if k' = k then (k, v) :: rest else (k', v') :: insertReplace rest k v

/-- Maps a function over a list together with an is-last-element flag,
mirroring `for (i, child) in children.iter().enumerate()` with
`is_last = i == children.len() - 1`. -/
def mapIsLast (g : α → Bool → List β) : List α → List (List β)
  | [] => []
  | c :: rest => g c rest.isEmpty :: mapIsLast g rest

/-- Fresh state (`TreeListViewState::new` / `with_capacity`): both dirty
flags start set, guide lines on. -/
def TreeListViewState.new : TreeListViewState α :=
  { list_state := ⟨none, none, 0⟩
    expanded := []
    visible_nodes := []
    visible_index := []
    dirty := true
    manual_marked := []
    effective_marked := []
    marks_dirty := true
    draw_lines := true }

/-- `TableState::select` lifted to the widget state: sets the selected row,
and — as documented by ratatui — also resets the scroll offset to 0 when the
index is `None`. -/
def state_select (s : TreeListViewState α) (v : Option Nat) : TreeListViewState α :=
  { s with
    list_state :=
      { s.list_state with
        selected := v
        offset := if v.isNone then 0 else s.list_state.offset } }

/-- `TreeListViewState::is_expanded`. -/
def is_expanded (s : TreeListViewState α) (parent : Option α) (id : α) : Bool :=
  decide ((parent, id) ∈ s.expanded)

/-- `TreeListViewState::snapshot`. -/
def snapshot (s : TreeListViewState α) : TreeListViewSnapshot α :=
  { expanded := s.expanded
    manual_marked := s.manual_marked
    selected := s.list_state.selected
    selected_column := s.list_state.selected_column
    offset := s.list_state.offset
    draw_lines := s.draw_lines }

/-- `TreeListViewState::restore`: collecting a vector into a hash set is
modelled by `List.dedup`; the offset is written first, then
`TableState::select` runs (resetting the offset to 0 when the snapshot has
no selection), then the selected column is written; both dirty flags are
set, derived caches stay. -/
def restore (s : TreeListViewState α) (snap : TreeListViewSnapshot α) :
    TreeListViewState α :=
  let s₁ :=
    { s with
      expanded := snap.expanded.dedup
      manual_marked := snap.manual_marked.dedup
      draw_lines := snap.draw_lines
      list_state := { s.list_state with offset := snap.offset } }
  let s₂ := state_select s₁ snap.selected
  { s₂ with
    list_state := { s₂.list_state with selected_column := snap.selected_column }
    dirty := true
    marks_dirty := true }

/-- `TreeListViewState::invalidate`. -/
def invalidate (s : TreeListViewState α) : TreeListViewState α :=
  { s with dirty := true }

/-- `TreeListViewState::invalidate_all`. -/
def invalidate_all (s : TreeListViewState α) : TreeListViewState α :=
  { s with dirty := true, marks_dirty := true }

/-- `TreeListViewState::select_prev`. -/
def select_prev (s : TreeListViewState α) : TreeListViewState α :=
  if s.visible_nodes.isEmpty then state_select s none
  else state_select s (some ((s.list_state.selected.getD 0) - 1))

/-- `TreeListViewState::select_next`. -/
def select_next (s : TreeListViewState α) : TreeListViewState α :=
  if s.visible_nodes.isEmpty then state_select s none
  else
    state_select s
      (some (Nat.min ((s.list_state.selected.getD 0) + 1) (s.visible_nodes.length - 1)))

/-- `TreeListViewState::selected_id`. -/
def selected_id (s : TreeListViewState α) : Option α :=
  s.list_state.selected.bind fun idx => (s.visible_nodes.get? idx).map (·.id)

/-- `TreeListViewState::selected_parent_id`. -/
def selected_parent_id (s : TreeListViewState α) : Option α :=
  s.list_state.selected.bind fun idx => (s.visible_nodes.get? idx).bind (·.parent)

/-- `TreeListViewState::toggle`. -/
def toggle (s : TreeListViewState α) (node_id : α) (parent : Option α) :
    TreeListViewState α :=
  if (parent, node_id) ∈ s.expanded then
    { s with expanded := s.expanded.erase (parent, node_id), dirty := true }
  else { s with expanded := (parent, node_id) :: s.expanded, dirty := true }

/-- `TreeListViewState::set_expanded`. -/
def set_expanded (s : TreeListViewState α) (node_id : α) (parent : Option α)
    (expand : Bool) : TreeListViewState α :=
  if expand then { s with expanded := setInsert s.expanded (parent, node_id), dirty := true }
  else { s with expanded := s.expanded.erase (parent, node_id), dirty := true }

/-- `TreeListViewState::collapse_all`. -/
def collapse_all (s : TreeListViewState α) : TreeListViewState α :=
  { s with expanded := [], dirty := true }

/-- Work loop of `TreeListViewState::expand_all`: explicit stack, children
pushed in order (so popped in reverse), every edge with a non-empty child
list inserted into the expansion set. -/
def expand_all_go (mo : TreeModelOps μ α) (m : μ) :
    Nat → List (Option α × α) → List (Option α × α) → List (Option α × α)
  | 0, _, acc => acc
  | _ + 1, [], acc => acc
  | fuel + 1, (p, n) :: rest, acc =>
    let cs := mo.children m n
    if cs.isEmpty then expand_all_go mo m fuel rest acc
    else
      expand_all_go mo m fuel ((cs.map fun c => (some n, c)).reverse ++ rest)
        (setInsert acc (p, n))

/-- `TreeListViewState::expand_all`. -/
def expand_all (mo : TreeModelOps μ α) (m : μ) (fuel : Nat)
    (s : TreeListViewState α) : TreeListViewState α :=
  let e : List (Option α × α) :=
    match mo.root m with
    | none => []
    | some r => expand_all_go mo m fuel [(none, r)] []
  { s with expanded := e, dirty := true }

/-- DFS of `TreeListViewState::build_visible_nodes`: emit the row, then
descend exactly when the node has children and the edge `(parent, node)` is
in the expansion set, children in model order with an is-last flag pushed on
the guide stack. -/
def build_visible_nodes (mo : TreeModelOps μ α) (m : μ)
    (exp : List (Option α × α)) (fuel : Nat) (node : α) (level : Nat)
    (parent : Option α) (tail : List Bool) : List (VisibleNode α) :=
  match fuel with
  | 0 => []
  | f + 1 =>
    let cs := mo.children m node
    let has_children := !cs.isEmpty
    let row : VisibleNode α := ⟨node, level, parent, has_children, tail⟩
    if has_children && decide ((parent, node) ∈ exp) then
      row ::
        (mapIsLast
          (fun c isLast =>
            build_visible_nodes mo m exp f c (level + 1) (some node) (tail ++ [isLast]))
          cs).flatten
    else [row]

/-- Row-index map rebuilt alongside the row list (`visible_index`,
`HashMap::insert` in traversal order, later inserts replacing earlier). -/
def mk_visible_index (rows : List (VisibleNode α)) : List (α × Nat) :=
  rows.enum.foldl (fun acc p => insertReplace acc p.2.id p.1) []

/-- `TreeListViewState::clamp_selection`. -/
def clamp_selection (s : TreeListViewState α) : TreeListViewState α :=
  if s.visible_nodes.isEmpty then state_select s none
  else
    match s.list_state.selected with
    | some sel =>
      if s.visible_nodes.length ≤ sel then
        state_select s (some (s.visible_nodes.length - 1))
      else s
    | none => s

/-- `TreeListViewState::update_visible_nodes`: rebuild rows and index, clear
the row-dirty flag, clamp the selection. -/
def update_visible_nodes (mo : TreeModelOps μ α) (m : μ) (fuel : Nat)
    (s : TreeListViewState α) : TreeListViewState α :=
  let rows :=
    match mo.root m with
    | some r => build_visible_nodes mo m s.expanded fuel r 0 none []
    | none => []
  clamp_selection
    { s with visible_nodes := rows, visible_index := mk_visible_index rows, dirty := false }

/-- `TreeListViewState::ensure_visible_nodes`: recompute only when dirty. -/
def ensure_visible_nodes (mo : TreeModelOps μ α) (m : μ) (fuel : Nat)
    (s : TreeListViewState α) : TreeListViewState α :=
  if s.dirty then update_visible_nodes mo m fuel s else s

/-- `TreeListViewState::subtree_has_match` (memo dropped; it caches a pure
recursive predicate): the filter matches the node or somewhere below it. -/
def subtree_has_match (mo : TreeModelOps μ α) (m : μ) (p : μ → α → Bool) :
    Nat → α → Bool
  | 0, _ => false
  | f + 1, n =>
    p m n || (mo.children m n).any fun c => subtree_has_match mo m p f c

/-- DFS of `TreeListViewState::build_visible_nodes_filtered`: a node is
emitted when it self-matches or some child subtree matches; descent happens
when `auto_expand` is set or the edge is expanded, into matching children
only. -/
def build_visible_nodes_filtered (mo : TreeModelOps μ α) (m : μ)
    (exp : List (Option α × α)) (p : μ → α → Bool) (cfg : TreeFilterConfig)
    (sfuel : Nat) (fuel : Nat) (node : α) (level : Nat) (parent : Option α)
    (tail : List Bool) : List (VisibleNode α) :=
  match fuel with
  | 0 => []
  | f + 1 =>
    let self_match := p m node
    let cs := mo.children m node
    let has_children := !cs.isEmpty
    let vcs := cs.filter fun c => subtree_has_match mo m p sfuel c
    if !(self_match || !vcs.isEmpty) then []
    else
      let row : VisibleNode α := ⟨node, level, parent, has_children, tail⟩
      if (cfg.auto_expand || decide ((parent, node) ∈ exp)) && !vcs.isEmpty then
        row ::
          (mapIsLast
            (fun c isLast =>
              build_visible_nodes_filtered mo m exp p cfg sfuel f c (level + 1)
                (some node) (tail ++ [isLast]))
            vcs).flatten
      else [row]

/-- `TreeListViewState::ensure_visible_nodes_filtered`. -/
def ensure_visible_nodes_filtered (mo : TreeModelOps μ α) (m : μ)
    (p : μ → α → Bool) (cfg : TreeFilterConfig) (sfuel fuel : Nat)
    (s : TreeListViewState α) : TreeListViewState α :=
  if !s.dirty then s
  else if !cfg.enabled then update_visible_nodes mo m fuel s
  else
    let rows :=
      match mo.root m with
      | some r => build_visible_nodes_filtered mo m s.expanded p cfg sfuel fuel r 0 none []
      | none => []
    clamp_selection
      { s with visible_nodes := rows, visible_index := mk_visible_index rows, dirty := false }

/-- `TreeListViewState::compute_effective_mark`, memo kept as an association
list: a node is marked when manually marked, or has children that are all
(recursively, short-circuiting like `Iterator::all`) marked; the result is
inserted in the memo. -/
def compute_effective_mark (mo : TreeModelOps μ α) (m : μ) (manual : List α) :
    Nat → α → List (α × Bool) → Bool × List (α × Bool)
  | 0, _, memo => (false, memo)
  | f + 1, n, memo =>
    match blookup memo n with
    | some b => (b, memo)
    | none =>
      let pr : Bool × List (α × Bool) :=
        if n ∈ manual then (true, memo)
        else
          let cs := mo.children m n
          if cs.isEmpty then (false, memo)
          else
            cs.foldl
              (fun acc c =>
                if acc.1 then compute_effective_mark mo m manual f c acc.2 else acc)
              (true, memo)
      (pr.1, (n, pr.1) :: pr.2)

/-- `TreeListViewState::ensure_mark_cache`: seeds are the visible rows, the
root and the manually marked nodes (a hash set; iteration order is modelled
as first-insertion order, which is immaterial for the resulting set); the
effective set is rebuilt from the memo entries that are true. -/
def ensure_mark_cache (mo : TreeModelOps μ α) (m : μ) (fuel : Nat)
    (s : TreeListViewState α) : TreeListViewState α :=
  if !s.marks_dirty then s
  else
    let rootSeeds : List α := match mo.root m with | some r => [r] | none => []
    let seeds := (s.visible_nodes.map (·.id) ++ rootSeeds ++ s.manual_marked).dedup
    let memo :=
      seeds.foldl (fun mem n => (compute_effective_mark mo m s.manual_marked fuel n mem).2) []
    { s with
      effective_marked := memo.filterMap fun pr => if pr.2 then some pr.1 else none
      marks_dirty := false }

/-- `TreeListViewState::node_is_marked`. -/
def node_is_marked (s : TreeListViewState α) (n : α) : Bool :=
  decide (n ∈ s.effective_marked)

/-- `TreeListViewState::toggle_node_mark`. -/
def toggle_node_mark (s : TreeListViewState α) (n : α) : TreeListViewState α :=
  if n ∈ s.manual_marked then
    { s with manual_marked := s.manual_marked.erase n, marks_dirty := true }
  else { s with manual_marked := n :: s.manual_marked, marks_dirty := true }

/-- `TreeListViewState::prune_removed_marks`. -/
def prune_removed_marks (mo : TreeModelOps μ α) (m : μ)
    (s : TreeListViewState α) : TreeListViewState α :=
  { s with
    manual_marked := s.manual_marked.filter fun n => mo.contains m n
    effective_marked := s.effective_marked.filter fun n => mo.contains m n
    marks_dirty := true }

/-- `TreeListViewState::dfs_find_path`: path of `(parent, node)` edges from
the start node to the target, children tried in model order. -/
def dfs_find_path (mo : TreeModelOps μ α) (m : μ) (target : α) :
    Nat → α → Option α → Option (List (Option α × α))
  | 0, _, _ => none
  | f + 1, node, parent =>
    if node = target then some [(parent, node)]
    else
      match (mo.children m node).findSome? fun c => dfs_find_path mo m target f c (some node) with
      | some path => some ((parent, node) :: path)
      | none => none

/-- `TreeListViewState::find_path_to`. -/
def find_path_to (mo : TreeModelOps μ α) (m : μ) (fuel : Nat) (target : α) :
    Option (List (Option α × α)) :=
  (mo.root m).bind fun r => dfs_find_path mo m target fuel r none

/-- `TreeListViewState::handle_edit_action`: refreshes the visible rows,
then executes the structural edit, returning
`(handled, state, model, clipboard)`. -/
def handle_edit_action (eo : TreeEditOps μ α) (fuel : Nat)
    (s₀ : TreeListViewState α) (m : μ) (action : TreeAction C)
    (clipboard : Option α) : Bool × TreeListViewState α × μ × Option α :=
  let s := ensure_visible_nodes eo.toTreeModelOps m fuel s₀
  match action with
  | .ReorderUp =>
    match selected_id s, selected_parent_id s with
    | some node_id, some parent_id =>
      let mv := eo.move_child_up m parent_id node_id
      if mv.2 then
        let s₁ := ensure_visible_nodes eo.toTreeModelOps mv.1 fuel (invalidate s)
        let s₂ :=
          match alookup s₁.visible_index node_id with
          | some idx => state_select s₁ (some idx)
          | none => s₁
        (true, s₂, mv.1, clipboard)
      else (false, s, mv.1, clipboard)
    | _, _ => (false, s, m, clipboard)
  | .ReorderDown =>
    match selected_id s, selected_parent_id s with
    | some node_id, some parent_id =>
      let mv := eo.move_child_down m parent_id node_id
      if mv.2 then
        let s₁ := ensure_visible_nodes eo.toTreeModelOps mv.1 fuel (invalidate s)
        let s₂ :=
          match alookup s₁.visible_index node_id with
          | some idx => state_select s₁ (some idx)
          | none => s₁
        (true, s₂, mv.1, clipboard)
      else (false, s, mv.1, clipboard)
    | _, _ => (false, s, m, clipboard)
  | .DetachNode =>
    match selected_id s with
    | some node_id =>
      if eo.is_root m node_id then (false, s, m, clipboard)
      else
        match selected_parent_id s with
        | some parent_id =>
          let m' := eo.remove_child m parent_id node_id
          (true, invalidate_all (prune_removed_marks eo.toTreeModelOps m' s), m', clipboard)
        | none => (false, s, m, clipboard)
    | none => (false, s, m, clipboard)
  | .DeleteNode =>
    match selected_id s with
    | some node_id =>
      if eo.is_root m node_id then (false, s, m, clipboard)
      else
        let m' := eo.delete_node m node_id
        (true, invalidate_all (prune_removed_marks eo.toTreeModelOps m' s), m', clipboard)
    | none => (false, s, m, clipboard)
  | .YankNode =>
    match selected_id s with
    | some node_id =>
      if eo.is_root m node_id then (false, s, m, clipboard)
      else (true, s, m, some node_id)
    | none => (false, s, m, clipboard)
  | .PasteNode =>
    match clipboard, selected_id s with
    | some node_id, some parent_id =>
      let m' := eo.add_child m parent_id node_id
      (true, invalidate_all s, m', clipboard)
    | _, _ => (false, s, m, clipboard)
  | .ExpandAll => (true, expand_all eo.toTreeModelOps m fuel s, m, clipboard)
  | .CollapseAll => (true, collapse_all s, m, clipboard)
  | _ => (false, s, m, clipboard)

/-- Width constraints for a column in adaptive layout (`ColumnWidth` in
columns.rs; `u16` fields as `Nat`, range noted per theorem). -/
structure ColumnWidth where
  min : Nat
  ideal : Nat
  max : Nat
deriving DecidableEq

/-- `u16::saturating_add`. -/
def satAdd (a b : Nat) : Nat := Nat.min (a + b) 65535

/-- One in-order growth pass of `distribute_widths`: each `(width, target)`
pair grows by `min (target - width) remaining` (saturating adds as in the
source), stopping early when the budget is exhausted. -/
def grow_pass : List (Nat × Nat) → Nat → List Nat × Nat
  | [], remaining => ([], remaining)
  | (w, t) :: rest, remaining =>
    if remaining = 0 then (w :: rest.map Prod.fst, 0)
    else
      let add := Nat.min (t - w) remaining
      let res := grow_pass rest (remaining - add)
      (satAdd w add :: res.1, res.2)

/-- `distribute_widths` in columns.rs: assign minimums, grow toward
`ideal.max(min)`, then toward `max`, in column order. -/
def distribute_widths (total : Nat) (columns : List ColumnWidth) : List Nat :=
  let min_sum := columns.foldl (fun a c => satAdd a c.min) 0
  let widths := columns.map (·.min)
  let remaining := total - min_sum
  if remaining = 0 then widths
  else
    let p2 := grow_pass (widths.zip (columns.map fun c => Nat.max c.ideal c.min)) remaining
    let p3 := grow_pass (p2.1.zip (columns.map (·.max))) p2.2
    p3.1

/-- Non-memoized meaning of `compute_effective_mark`: manually marked, or
non-leaf with all children effectively marked (the memo of the source only
caches values of this function). -/
def eff_mark (mo : TreeModelOps μ α) (m : μ) (manual : List α) : Nat → α → Bool
  | 0, _ => false
  | f + 1, n =>
    if n ∈ manual then true
    else
      let cs := mo.children m n
      if cs.isEmpty then false else cs.all fun c => eff_mark mo m manual f c

/-- Specification-side growth pass, following the claim's wording for the
width allocator: plain `Nat` arithmetic, each column grown in order up to
its target by whatever budget remains. -/
def spec_grow : List (Nat × Nat) → Nat → List Nat × Nat
  | [], budget => ([], budget)
  | (w, t) :: rest, budget =>
    let add := Nat.min (t - w) budget
    let res := spec_grow rest (budget - add)
    ((w + add) :: res.1, res.2)

/-- Specification-side width allocator, following the claim: minimums first
(returned as-is when the total does not exceed their sum), then an in-order
pass toward ideals, then an in-order pass toward maximums. -/
def spec_distribute_widths (total : Nat) (cols : List ColumnWidth) : List Nat :=
  let minima := cols.map (·.min)
  let msum := (cols.map (·.min)).sum
  if total ≤ msum then minima
  else
    let p2 := spec_grow (minima.zip (cols.map fun c => Nat.max c.ideal c.min)) (total - msum)
    let p3 := spec_grow (p2.1.zip (cols.map (·.max))) p2.2
    p3.1

/-- Concrete tree `0 → {1, 2}`, `1 → {3, 4}` from the spec scenarios (the
`TestTree` of state.rs' tests), as a child-list table. -/
def testTree : List (List Nat) := [[1, 2], [3, 4], [], [], []]

/-- Read-only operations over a child-list table: root `0`, children by
index, containment by bound. -/
def testOps : TreeModelOps (List (List Nat)) Nat :=
  { root := fun _ => some 0
    children := fun m n => m.getD n []
    contains := fun m n => n < m.length }

/-- Scenario state for the unfiltered traversal: fresh state with edges
`(none, 0)` and `(some 0, 1)` expanded, rows computed. -/
def scenarioState : TreeListViewState Nat :=
  ensure_visible_nodes testOps testTree 10
    (set_expanded (set_expanded TreeListViewState.new 0 none true) 1 (some 0) true)

/-- Concrete tree `0 → {1, 2}`, `2 → {3}` used for the off-seed mark
counterexample. -/
def markTree : List (List Nat) := [[1, 2], [], [3], []]

/-- State over `markTree` just before a mark recompute: fresh state restored
with manual mark `{3}`, rows computed (only the collapsed root is visible). -/
def markPreState : TreeListViewState Nat :=
  ensure_visible_nodes testOps markTree 10
    (restore TreeListViewState.new
      { expanded := [], manual_marked := [3], selected := none,
        selected_column := none, offset := 0, draw_lines := true })

/-- State over `markTree` after the mark recompute. -/
def markState : TreeListViewState Nat :=
  ensure_mark_cache testOps markTree 10 markPreState

/-- Reachability in a child-list table (is `b` inside the subtree rooted at
`a`), used by the cycle-guarding model below. -/
def subtreeContains (m : List (List Nat)) : Nat → Nat → Nat → Bool
  | 0, _, _ => false
  | f + 1, a, b => a == b || (m.getD a []).any fun c => subtreeContains m f c b

/-- Editable child-list model whose `add_child` obeys the spec's contract of
rejecting (as a no-op) any attachment that would create a cycle; reorders
report no move, as at a sibling boundary. -/
def cexOps : TreeEditOps (List (List Nat)) Nat :=
  { root := fun _ => some 0
    children := fun m n => m.getD n []
    contains := fun m n => n < m.length
    is_root := fun _ n => n == 0
    move_child_up := fun m _ _ => (m, false)
    move_child_down := fun m _ _ => (m, false)
    remove_child := fun m p c => m.set p ((m.getD p []).filter (· ≠ c))
    delete_node := fun m _ => m
    add_child := fun m p c =>
      if subtreeContains m (m.length + 1) c p then m
      else m.set p ((m.getD p []) ++ [c]) }

/-- Concrete chain tree `0 → 1 → 2` for the paste-cycle counterexample. -/
def cexTree : List (List Nat) := [[1], [2], []]

/-- State over `cexTree` with the whole chain expanded and the leaf `2`
selected (row index 2); pasting clipboard node `1` under it would create a
cycle. -/
def cexState : TreeListViewState Nat :=
  state_select
    (ensure_visible_nodes cexOps.toTreeModelOps cexTree 10
      (set_expanded (set_expanded TreeListViewState.new 0 none true) 1 (some 0) true))
    (some 2)

/-- State over `cexTree` with rows computed and nothing selected. -/
def noneSelState : TreeListViewState Nat :=
  ensure_visible_nodes cexOps.toTreeModelOps cexTree 10 TreeListViewState.new

/-- State over `cexTree` with the root row selected. -/
def rootSelState : TreeListViewState Nat :=
  state_select noneSelState (some 0)

/-- Two-row state with no selection, for the selection-motion witness. -/
def wState : TreeListViewState Nat :=
  { TreeListViewState.new with
    visible_nodes := [⟨0, 0, none, false, []⟩, ⟨1, 0, none, false, []⟩] }

/-- State with no selection and a nonzero scroll offset (reachable by
scrolling with nothing selected), for the snapshot round-trip
counterexample. -/
def offsState : TreeListViewState Nat :=
  { TreeListViewState.new with list_state := ⟨none, none, 5⟩ }

/-- State with a selected row and a nonzero scroll offset, for the snapshot
round-trip witness. -/
def selOffsState : TreeListViewState Nat :=
  { TreeListViewState.new with list_state := ⟨some 1, none, 7⟩ }

lemma state_select_fields (s : TreeListViewState α) (v : Option Nat) :
    (state_select s v).visible_nodes = s.visible_nodes
    ∧ (state_select s v).dirty = s.dirty
    ∧ (state_select s v).marks_dirty = s.marks_dirty
    ∧ (state_select s v).list_state.selected = v :=
  ⟨rfl, rfl, rfl, rfl⟩

lemma clamp_selection_visible (s : TreeListViewState α) :
    (clamp_selection s).visible_nodes = s.visible_nodes := by
  unfold clamp_selection
  split
  · rfl
  · split
    · split <;> rfl
    · rfl

lemma clamp_selection_dirty (s : TreeListViewState α) :
    (clamp_selection s).dirty = s.dirty := by
  unfold clamp_selection
  split
  · rfl
  · split
    · split <;> rfl
    · rfl

lemma clamp_selection_marks_dirty (s : TreeListViewState α) :
    (clamp_selection s).marks_dirty = s.marks_dirty := by
  unfold clamp_selection
  split
  · rfl
  · split
    · split <;> rfl
    · rfl

lemma clamp_selection_sel_nil (s : TreeListViewState α) (h : s.visible_nodes = []) :
    (clamp_selection s).list_state.selected = none := by
  unfold clamp_selection
  simp [h, state_select]

lemma clamp_selection_sel_none (s : TreeListViewState α)
    (h : s.list_state.selected = none) :
    (clamp_selection s).list_state.selected = none := by
  unfold clamp_selection
  split
  · rfl
  · rw [h]
    exact h

lemma clamp_selection_sel_some (s : TreeListViewState α) (i : Nat)
    (hne : s.visible_nodes ≠ []) (h : s.list_state.selected = some i) :
    (clamp_selection s).list_state.selected =
      some (Nat.min i (s.visible_nodes.length - 1)) := by
  unfold clamp_selection
  have he : s.visible_nodes.isEmpty = false := by
    simpa [List.isEmpty_iff] using hne
  rw [he]
  simp only [Bool.false_eq_true, if_false, h]
  have hlen : 1 ≤ s.visible_nodes.length := by
    cases hv : s.visible_nodes with
    | nil => exact absurd hv hne
    | cons a l => simp [hv]
  split
  · rename_i hle
    have : Nat.min i (s.visible_nodes.length - 1) = s.visible_nodes.length - 1 :=
      Nat.min_eq_right (by omega)
    simp [state_select, this]
  · rename_i hlt
    have : Nat.min i (s.visible_nodes.length - 1) = i :=
      Nat.min_eq_left (by omega)
    simp [h, this]

/-- C8: calling `ensure_visible_nodes` twice with no intervening mutation
yields the identical state (hence visible-row list) both times: after the
first call the row-dirty flag is false, so the second call performs no
recomputation and is the identity. -/
theorem ensure_visible_nodes_idempotent {μ α : Type} [DecidableEq α]
    (mo : TreeModelOps μ α) (m : μ) (fuel : Nat) (s : TreeListViewState α) :
    (ensure_visible_nodes mo m fuel s).dirty = false
    ∧ ensure_visible_nodes mo m fuel (ensure_visible_nodes mo m fuel s)
        = ensure_visible_nodes mo m fuel s
    ∧ (ensure_visible_nodes mo m fuel (ensure_visible_nodes mo m fuel s)).visible_nodes
        = (ensure_visible_nodes mo m fuel s).visible_nodes := by
  have hd : (ensure_visible_nodes mo m fuel s).dirty = false := by
    unfold ensure_visible_nodes
    split
    · unfold update_visible_nodes
      rw [clamp_selection_dirty]
    · rename_i h
      simpa using h
  have hid : ensure_visible_nodes mo m fuel (ensure_visible_nodes mo m fuel s)
      = ensure_visible_nodes mo m fuel s := by
    conv_lhs => rw [ensure_visible_nodes]
    rw [hd]
    simp
  exact ⟨hd, hid, by rw [hid]⟩

/-- C9 counterexample: restoring the snapshot of a state with no selection
and scroll offset 5 yields offset 0 — `restore` writes the snapshot's
offset and then calls `TableState::select(None)`, which resets the offset —
so the snapshot round-trip does not reproduce the scroll offset exactly. -/
theorem snapshot_restore_offset_cex :
    offsState.list_state.offset = 5
    ∧ offsState.list_state.selected = none
    ∧ (restore offsState (snapshot offsState)).list_state.offset = 0
    ∧ (restore offsState (snapshot offsState)).list_state.offset
        ≠ offsState.list_state.offset :=
  ⟨rfl, rfl, by decide, by decide⟩

/-- C9 amended: restoring any state from a snapshot of `s` reproduces the
expansion edge set, the manual-mark set, both selection indices and the
guide-line flag of `s` exactly, and reproduces the scroll offset exactly
when the snapshot has a selected row — when it has none, the embedded
`TableState::select(None)` call resets the offset to 0; only the derived
row and mark caches are left as they were in the target, with both dirty
flags set so they are recomputed on the next query. -/
theorem snapshot_restore_roundtrip {α : Type} [DecidableEq α]
    (t s : TreeListViewState α) :
    (∀ e, e ∈ (restore t (snapshot s)).expanded ↔ e ∈ s.expanded)
    ∧ (∀ n, n ∈ (restore t (snapshot s)).manual_marked ↔ n ∈ s.manual_marked)
    ∧ (restore t (snapshot s)).list_state.selected = s.list_state.selected
    ∧ (restore t (snapshot s)).list_state.selected_column = s.list_state.selected_column
    ∧ (∀ i, s.list_state.selected = some i →
        (restore t (snapshot s)).list_state.offset = s.list_state.offset)
    ∧ (s.list_state.selected = none →
        (restore t (snapshot s)).list_state.offset = 0)
    ∧ (restore t (snapshot s)).draw_lines = s.draw_lines
    ∧ (restore t (snapshot s)).dirty = true
    ∧ (restore t (snapshot s)).marks_dirty = true
    ∧ (restore t (snapshot s)).visible_nodes = t.visible_nodes
    ∧ (restore t (snapshot s)).effective_marked = t.effective_marked := by
  refine ⟨fun e => ?_, fun n => ?_, rfl, rfl, ?_, ?_, rfl, rfl, rfl, rfl, rfl⟩
  · simp [restore, snapshot, state_select, List.mem_dedup]
  · simp [restore, snapshot, state_select, List.mem_dedup]
  · intro i hi
    simp [restore, snapshot, state_select, hi]
  · intro h
    simp [restore, snapshot, state_select, h]

/-- C9 amended witness: with a selected row the offset round-trips exactly;
with no selection it is reset to 0. -/
theorem snapshot_restore_roundtrip_witness :
    (restore TreeListViewState.new (snapshot selOffsState)).list_state.offset
        = selOffsState.list_state.offset
    ∧ (restore TreeListViewState.new (snapshot offsState)).list_state.offset = 0 :=
  ⟨(snapshot_restore_roundtrip TreeListViewState.new selOffsState).2.2.2.2.1 1 rfl,
   (snapshot_restore_roundtrip TreeListViewState.new offsState).2.2.2.2.2.1 rfl⟩

/-- C10: on an empty visible list both motions clear the selection; on a
non-empty list with no current selection, `select_prev` selects row 0 while
`select_next` selects `min 1 (len - 1)`, as if row 0 had been selected. -/
theorem select_motion_with_no_selection {α : Type} [DecidableEq α]
    (s : TreeListViewState α) :
    (s.visible_nodes = [] →
      (select_prev s).list_state.selected = none
      ∧ (select_next s).list_state.selected = none)
    ∧ (s.visible_nodes ≠ [] → s.list_state.selected = none →
      (select_prev s).list_state.selected = some 0
      ∧ (select_next s).list_state.selected
          = some (Nat.min 1 (s.visible_nodes.length - 1))) := by
  constructor
  · intro h
    have he : s.visible_nodes.isEmpty = true := by simp [h]
    exact ⟨by simp [select_prev, he, state_select],
           by simp [select_next, he, state_select]⟩
  · intro hne hnone
    have he : s.visible_nodes.isEmpty = false := by
      simpa [List.isEmpty_iff] using hne
    constructor
    · simp [select_prev, he, hnone, state_select]
    · simp [select_next, he, hnone, state_select]

/-- C10 witness: on a concrete two-row state with no selection, the motions
land on rows 0 and 1. -/
theorem select_motion_with_no_selection_witness :
    (select_prev wState).list_state.selected = some 0
    ∧ (select_next wState).list_state.selected
        = some (Nat.min 1 (wState.visible_nodes.length - 1)) :=
  (select_motion_with_no_selection wState).2 (by decide) (by decide)

/-- C2: the unfiltered traversal always emits the node's row, and descends
into its children (in model order, pushing an is-last flag per child)
exactly when the node has at least one child and the edge `(parent, node)`
is in the expansion set; on the scenario tree `0→{1,2}`, `1→{3,4}` with
`(none,0)` and `(some 0,1)` expanded the visible ids are `[0,1,3,4,2]` at
depths `[0,1,2,2,1]`. -/
theorem visible_rows_emit_and_descend :
    (∀ (μ α : Type) [DecidableEq α] (mo : TreeModelOps μ α) (m : μ)
      (exp : List (Option α × α)) (f : Nat) (n : α) (level : Nat)
      (parent : Option α) (tail : List Bool),
      build_visible_nodes mo m exp (f + 1) n level parent tail =
        ⟨n, level, parent, !(mo.children m n).isEmpty, tail⟩ ::
          (if mo.children m n ≠ [] ∧ (parent, n) ∈ exp then
            (mapIsLast
              (fun c isLast =>
                build_visible_nodes mo m exp f c (level + 1) (some n) (tail ++ [isLast]))
              (mo.children m n)).flatten
          else []))
    ∧ scenarioState.visible_nodes.map (·.id) = [0, 1, 3, 4, 2]
    ∧ scenarioState.visible_nodes.map (·.level) = [0, 1, 2, 2, 1] := by
  refine ⟨?_, by decide, by decide⟩
  intro μ α _ mo m exp f n level parent tail
  by_cases h : mo.children m n ≠ [] ∧ (parent, n) ∈ exp
  · have hb : (!(mo.children m n).isEmpty && decide ((parent, n) ∈ exp)) = true := by
      simp [List.isEmpty_iff, h.1, h.2]
    simp only [build_visible_nodes, hb, if_true, if_pos h]
  · have hb : (!(mo.children m n).isEmpty && decide ((parent, n) ∈ exp)) = false := by
      rcases not_and_or.mp h with h1 | h2
      · simp only [not_not] at h1
        simp [h1]
      · simp [h2]
    simp only [build_visible_nodes, hb, if_neg h]
    simp

/-- C7: after a visible-row recompute — unfiltered, or filtered while the
row-dirty flag is set — the selection is clamped to the new list: none when
the list is empty, unchanged when in bounds, the last index when it
previously exceeded the bounds; in particular any selected index is below
the visible-row count. -/
theorem recompute_clamps_selection {μ α : Type} [DecidableEq α]
    (mo : TreeModelOps μ α) (m : μ) (fuel : Nat) (s : TreeListViewState α)
    (p : μ → α → Bool) (cfg : TreeFilterConfig) (sfuel : Nat) :
    ((update_visible_nodes mo m fuel s).visible_nodes = [] →
      (update_visible_nodes mo m fuel s).list_state.selected = none)
    ∧ (∀ i, (update_visible_nodes mo m fuel s).list_state.selected = some i →
      i < (update_visible_nodes mo m fuel s).visible_nodes.length)
    ∧ ((update_visible_nodes mo m fuel s).visible_nodes ≠ [] →
      s.list_state.selected = none →
      (update_visible_nodes mo m fuel s).list_state.selected = none)
    ∧ ((update_visible_nodes mo m fuel s).visible_nodes ≠ [] →
      ∀ i, s.list_state.selected = some i →
      (update_visible_nodes mo m fuel s).list_state.selected =
        some (Nat.min i ((update_visible_nodes mo m fuel s).visible_nodes.length - 1)))
    ∧ (s.dirty = true →
      (∀ i,
        (ensure_visible_nodes_filtered mo m p cfg sfuel fuel s).list_state.selected = some i →
        i < (ensure_visible_nodes_filtered mo m p cfg sfuel fuel s).visible_nodes.length)
      ∧ ((ensure_visible_nodes_filtered mo m p cfg sfuel fuel s).visible_nodes = [] →
        (ensure_visible_nodes_filtered mo m p cfg sfuel fuel s).list_state.selected = none)) := by
  have main : ∀ (x : TreeListViewState α),
      ((clamp_selection x).visible_nodes = [] →
        (clamp_selection x).list_state.selected = none)
      ∧ (∀ i, (clamp_selection x).list_state.selected = some i →
        i < (clamp_selection x).visible_nodes.length)
      ∧ ((clamp_selection x).visible_nodes ≠ [] → x.list_state.selected = none →
        (clamp_selection x).list_state.selected = none)
      ∧ ((clamp_selection x).visible_nodes ≠ [] →
        ∀ i, x.list_state.selected = some i →
        (clamp_selection x).list_state.selected =
          some (Nat.min i ((clamp_selection x).visible_nodes.length - 1))) := by
    intro x
    rw [clamp_selection_visible]
    refine ⟨clamp_selection_sel_nil x, ?_, fun _ => clamp_selection_sel_none x,
      fun hne i hi => clamp_selection_sel_some x i hne hi⟩
    intro i hi
    by_cases hnil : x.visible_nodes = []
    · rw [clamp_selection_sel_nil x hnil] at hi
      cases hi
    · have hlen : 1 ≤ x.visible_nodes.length := by
        cases hv : x.visible_nodes with
        | nil => exact absurd hv hnil
        | cons a l => simp [hv]
      cases hsel : x.list_state.selected with
      | none =>
        rw [clamp_selection_sel_none x hsel] at hi
        cases hi
      | some j =>
        rw [clamp_selection_sel_some x j hnil hsel] at hi
        have heq : i = Nat.min j (x.visible_nodes.length - 1) := by
          injection hi with h
          exact h.symm
        have hle : Nat.min j (x.visible_nodes.length - 1) ≤ x.visible_nodes.length - 1 :=
          Nat.min_le_right _ _
        omega
  constructor
  · exact (main _).1
  constructor
  · exact (main _).2.1
  constructor
  · exact (main _).2.2.1
  constructor
  · exact (main _).2.2.2
  · intro hdirty
    unfold ensure_visible_nodes_filtered
    rw [hdirty]
    simp only [Bool.not_true, Bool.false_eq_true, if_false]
    split
    · exact ⟨(main _).2.1, (main _).1⟩
    · exact ⟨(main _).2.1, (main _).1⟩

/-- C7 witness: on the scenario tree, a filtered recompute from a fresh
dirty state with nothing selected leaves the selection at none (and the
no-rows case of a recompute over an empty model clears it). -/
theorem recompute_clamps_selection_witness :
    (ensure_visible_nodes_filtered testOps testTree (fun _ n => n == 4)
      TreeFilterConfig.enabledCfg 10 10 TreeListViewState.new).list_state.selected = none
    ∧ (update_visible_nodes testOps testTree 10 TreeListViewState.new).visible_nodes ≠ [] := by
  constructor
  · have h := recompute_clamps_selection testOps testTree 10 TreeListViewState.new
      (fun _ n => n == 4) TreeFilterConfig.enabledCfg 10
    rcases (h.2.2.2.2 (by decide)).1 with _
    by_cases hnil :
        (ensure_visible_nodes_filtered testOps testTree (fun _ n => n == 4)
          TreeFilterConfig.enabledCfg 10 10 TreeListViewState.new).visible_nodes = []
    · exact (h.2.2.2.2 (by decide)).2 hnil
    · decide
  · decide

/-- C6: the Detach/Delete/Yank edit actions are no-ops returning false when
nothing is selected or the selected node is the root, and the reorder
actions are no-ops returning false when the model reports no move (sibling
boundary): the tree, marks, clipboard and caches are all left as they were
after the initial visible-row refresh. -/
theorem edit_actions_noop_on_failed_preconditions {μ C α : Type} [DecidableEq α]
    (eo : TreeEditOps μ α) (fuel : Nat) (s₀ : TreeListViewState α) (m : μ)
    (clip : Option α) :
    (selected_id (ensure_visible_nodes eo.toTreeModelOps m fuel s₀) = none →
      ∀ a ∈ ([.DetachNode, .DeleteNode, .YankNode, .ReorderUp, .ReorderDown] :
          List (TreeAction C)),
        handle_edit_action eo fuel s₀ m a clip
          = (false, ensure_visible_nodes eo.toTreeModelOps m fuel s₀, m, clip))
    ∧ (∀ nid, selected_id (ensure_visible_nodes eo.toTreeModelOps m fuel s₀) = some nid →
      eo.is_root m nid = true →
      ∀ a ∈ ([.DetachNode, .DeleteNode, .YankNode] : List (TreeAction C)),
        handle_edit_action eo fuel s₀ m a clip
          = (false, ensure_visible_nodes eo.toTreeModelOps m fuel s₀, m, clip))
    ∧ (∀ nid pid,
      selected_id (ensure_visible_nodes eo.toTreeModelOps m fuel s₀) = some nid →
      selected_parent_id (ensure_visible_nodes eo.toTreeModelOps m fuel s₀) = some pid →
      eo.move_child_up m pid nid = (m, false) →
      handle_edit_action (C := C) eo fuel s₀ m .ReorderUp clip
        = (false, ensure_visible_nodes eo.toTreeModelOps m fuel s₀, m, clip))
    ∧ (∀ nid pid,
      selected_id (ensure_visible_nodes eo.toTreeModelOps m fuel s₀) = some nid →
      selected_parent_id (ensure_visible_nodes eo.toTreeModelOps m fuel s₀) = some pid →
      eo.move_child_down m pid nid = (m, false) →
      handle_edit_action (C := C) eo fuel s₀ m .ReorderDown clip
        = (false, ensure_visible_nodes eo.toTreeModelOps m fuel s₀, m, clip)) := by
  refine ⟨?_, ?_, ?_, ?_⟩
  · intro hsel a ha
    simp only [List.mem_cons, List.mem_singleton] at ha
    rcases ha with rfl | rfl | rfl | rfl | rfl | h
    · simp only [handle_edit_action, hsel]
    · simp only [handle_edit_action, hsel]
    · simp only [handle_edit_action, hsel]
    · simp only [handle_edit_action, hsel]
    · simp only [handle_edit_action, hsel]
    · cases h
  · intro nid hsel hroot a ha
    simp only [List.mem_cons, List.mem_singleton] at ha
    rcases ha with rfl | rfl | rfl | h
    · simp only [handle_edit_action, hsel, hroot, if_true]
    · simp only [handle_edit_action, hsel, hroot, if_true]
    · simp only [handle_edit_action, hsel, hroot, if_true]
    · cases h
  · intro nid pid hsel hpar hmove
    simp only [handle_edit_action, hsel, hpar, hmove, Bool.false_eq_true, if_false]
  · intro nid pid hsel hpar hmove
    simp only [handle_edit_action, hsel, hpar, hmove, Bool.false_eq_true, if_false]

/-- C6 witness: over the concrete chain tree, detach with nothing selected,
delete with the root selected, and reorder-up at a boundary all return false
and leave model, state and clipboard untouched. -/
theorem edit_actions_noop_on_failed_preconditions_witness :
    handle_edit_action (C := Unit) cexOps 10 noneSelState cexTree .DetachNode none
      = (false, ensure_visible_nodes cexOps.toTreeModelOps cexTree 10 noneSelState,
          cexTree, none)
    ∧ handle_edit_action (C := Unit) cexOps 10 rootSelState cexTree .DeleteNode none
      = (false, ensure_visible_nodes cexOps.toTreeModelOps cexTree 10 rootSelState,
          cexTree, none)
    ∧ handle_edit_action (C := Unit) cexOps 10 cexState cexTree .ReorderUp (some 1)
      = (false, ensure_visible_nodes cexOps.toTreeModelOps cexTree 10 cexState,
          cexTree, some 1) := by
  refine ⟨?_, ?_, ?_⟩
  · exact (edit_actions_noop_on_failed_preconditions cexOps 10 noneSelState cexTree
      none).1 (by decide) _ (by simp)
  · exact (edit_actions_noop_on_failed_preconditions cexOps 10 rootSelState cexTree
      none).2.1 0 (by decide) (by decide) _ (by simp)
  · exact (edit_actions_noop_on_failed_preconditions cexOps 10 cexState cexTree
      (some 1)).2.2.1 2 1 (by decide) (by decide) (by decide)

/-- C1 counterexample: with the chain `0 → 1 → 2`, clipboard `1` and
selection on `2`, attaching `1` under `2` would create a cycle; the model
(obeying the spec's contract) rejects the attach as a no-op, yet
`handle_edit_action` reports the paste as handled (`true`), not false. -/
theorem paste_cycle_reported_handled_cex :
    (handle_edit_action (C := Unit) cexOps 10 cexState cexTree .PasteNode (some 1)).1 = true
    ∧ selected_id (ensure_visible_nodes cexOps.toTreeModelOps cexTree 10 cexState) = some 2
    ∧ subtreeContains cexTree 4 1 2 = true
    ∧ (handle_edit_action (C := Unit) cexOps 10 cexState cexTree .PasteNode (some 1)).2.2.1
        = cexTree := by
  refine ⟨by decide, by decide, by decide, by decide⟩

/-- C1 amended: paste is reported handled (true) exactly when the clipboard
is non-empty and a row is selected; on success both caches are fully
invalidated, the clipboard stays populated, and the attachment — including
any cycle rejection — is delegated to the model's `add_child`, whose outcome
does not influence the reported result; on failure everything is left as
after the visible-row refresh. -/
theorem paste_succeeds_iff_clipboard_and_selection {μ C α : Type} [DecidableEq α]
    (eo : TreeEditOps μ α) (fuel : Nat) (s₀ : TreeListViewState α) (m : μ)
    (clip : Option α) :
    ((handle_edit_action (C := C) eo fuel s₀ m .PasteNode clip).1 = true ↔
      clip.isSome = true
      ∧ (selected_id (ensure_visible_nodes eo.toTreeModelOps m fuel s₀)).isSome = true)
    ∧ (handle_edit_action (C := C) eo fuel s₀ m .PasteNode clip).2.2.2 = clip
    ∧ (∀ nid pid, clip = some nid →
      selected_id (ensure_visible_nodes eo.toTreeModelOps m fuel s₀) = some pid →
      handle_edit_action (C := C) eo fuel s₀ m .PasteNode clip
        = (true, invalidate_all (ensure_visible_nodes eo.toTreeModelOps m fuel s₀),
            eo.add_child m pid nid, clip)
      ∧ (invalidate_all (ensure_visible_nodes eo.toTreeModelOps m fuel s₀)).dirty = true
      ∧ (invalidate_all (ensure_visible_nodes eo.toTreeModelOps m fuel s₀)).marks_dirty
          = true)
    ∧ ((handle_edit_action (C := C) eo fuel s₀ m .PasteNode clip).1 = false →
      handle_edit_action (C := C) eo fuel s₀ m .PasteNode clip
        = (false, ensure_visible_nodes eo.toTreeModelOps m fuel s₀, m, clip)) := by
  have hchar : handle_edit_action (C := C) eo fuel s₀ m .PasteNode clip =
      match clip, selected_id (ensure_visible_nodes eo.toTreeModelOps m fuel s₀) with
      | some nid, some pid =>
        (true, invalidate_all (ensure_visible_nodes eo.toTreeModelOps m fuel s₀),
          eo.add_child m pid nid, clip)
      | _, _ => (false, ensure_visible_nodes eo.toTreeModelOps m fuel s₀, m, clip) := rfl
  refine ⟨?_, ?_, ?_, ?_⟩
  · rw [hchar]
    cases hclip : clip with
    | none => simp
    | some nid =>
      cases hsel : selected_id (ensure_visible_nodes eo.toTreeModelOps m fuel s₀) with
      | none => simp
      | some pid => simp
  · rw [hchar]
    cases clip with
    | none => rfl
    | some nid =>
      cases selected_id (ensure_visible_nodes eo.toTreeModelOps m fuel s₀) with
      | none => rfl
      | some pid => rfl
  · intro nid pid hc hs
    rw [hchar, hc, hs]
    exact ⟨rfl, rfl, rfl⟩
  · intro hfalse
    rw [hchar]
    cases hclip : clip with
    | none => rfl
    | some nid =>
      cases hsel : selected_id (ensure_visible_nodes eo.toTreeModelOps m fuel s₀) with
      | none => rfl
      | some pid =>
        rw [hchar, hclip, hsel] at hfalse
        cases hfalse

/-- C1 amended witness: at the concrete paste-cycle input the clipboard and
selection are both present, so the paste is reported handled, the clipboard
stays `some 1`, and the state is fully invalidated. -/
theorem paste_succeeds_iff_clipboard_and_selection_witness :
    handle_edit_action (C := Unit) cexOps 10 cexState cexTree .PasteNode (some 1)
      = (true,
          invalidate_all (ensure_visible_nodes cexOps.toTreeModelOps cexTree 10 cexState),
          cexOps.add_child cexTree 2 1, some 1)
    ∧ (invalidate_all
        (ensure_visible_nodes cexOps.toTreeModelOps cexTree 10 cexState)).dirty = true
    ∧ (invalidate_all
        (ensure_visible_nodes cexOps.toTreeModelOps cexTree 10 cexState)).marks_dirty
        = true :=
  (paste_succeeds_iff_clipboard_and_selection cexOps 10 cexState cexTree
    (some 1)).2.2.1 1 2 rfl (by decide)

lemma sat_fold_min (l : List ColumnWidth) :
    ∀ a, a ≤ 65535 → (∀ c ∈ l, c.min ≤ 65535) →
      l.foldl (fun x c => satAdd x c.min) a = Nat.min (a + (l.map (·.min)).sum) 65535 := by
  induction l with
  | nil =>
    intro a ha _
    simp [Nat.min_eq_left, ha]
  | cons c t ih =>
    intro a ha hb
    have hc : c.min ≤ 65535 := hb c (by simp)
    have hsat : satAdd a c.min ≤ 65535 := Nat.min_le_right _ _
    have ht : ∀ x ∈ t, x.min ≤ 65535 := fun x hx => hb x (by simp [hx])
    simp only [List.foldl_cons, List.map_cons, List.sum_cons]
    rw [ih _ hsat ht]
    simp only [satAdd, Nat.min_def]
    split_ifs <;> omega

lemma spec_grow_zero (l : List (Nat × Nat)) : spec_grow l 0 = (l.map Prod.fst, 0) := by
  induction l with
  | nil => rfl
  | cons pr t ih => simp [spec_grow, ih]

lemma grow_pass_eq_spec (l : List (Nat × Nat)) :
    ∀ r, (∀ pr ∈ l, pr.1 ≤ 65535 ∧ pr.2 ≤ 65535) → grow_pass l r = spec_grow l r := by
  induction l with
  | nil => intro r _; rfl
  | cons pr t ih =>
    intro r hb
    obtain ⟨w, t'⟩ := pr
    have hw : w ≤ 65535 := (hb (w, t') (by simp)).1
    have ht' : t' ≤ 65535 := (hb (w, t') (by simp)).2
    have hbt : ∀ pr ∈ t, pr.1 ≤ 65535 ∧ pr.2 ≤ 65535 := fun x hx => hb x (by simp [hx])
    by_cases hr : r = 0
    · subst hr
      rw [spec_grow_zero]
      simp [grow_pass, spec_grow, spec_grow_zero]
    · have hadd : satAdd w (Nat.min (t' - w) r) = w + Nat.min (t' - w) r := by
        simp only [satAdd, Nat.min_def]
        split_ifs <;> omega
      simp only [grow_pass, spec_grow, if_neg hr, hadd, ih _ hbt]

lemma spec_grow_length (l : List (Nat × Nat)) (r : Nat) :
    (spec_grow l r).1.length = l.length := by
  induction l generalizing r with
  | nil => rfl
  | cons pr t ih => simp [spec_grow, ih]

lemma spec_grow_mem_le (M : Nat) (l : List (Nat × Nat)) :
    ∀ r, (∀ pr ∈ l, pr.1 ≤ M ∧ pr.2 ≤ M) → ∀ x ∈ (spec_grow l r).1, x ≤ M := by
  induction l with
  | nil => intro r _ x hx; cases hx
  | cons pr t ih =>
    intro r hb x hx
    obtain ⟨w, t'⟩ := pr
    simp only [spec_grow, List.mem_cons] at hx
    rcases hx with rfl | hx
    · have hw : w ≤ M := (hb (w, t') (by simp)).1
      have ht' : t' ≤ M := (hb (w, t') (by simp)).2
      have : Nat.min (t' - w) r ≤ t' - w := Nat.min_le_left _ _
      omega
    · exact ih _ (fun y hy => hb y (by simp [hy])) x hx

/-- C5: the width allocator follows the claim's three phases — minimums
first, one in-order pass growing toward ideals, one in-order pass growing
toward maximums — formalized as equality with the specification-side
`spec_distribute_widths` (over the `u16` range); when the total does not
exceed the sum of minimums the minimums are returned as-is; on
`total = 12`, columns `(4,6,8)` and `(4,4,6)`, the result is `[8, 4]`. -/
theorem distribute_widths_three_phase :
    (∀ (total : Nat) (cols : List ColumnWidth),
      total ≤ 65535 →
      (∀ c ∈ cols, c.min ≤ 65535 ∧ c.ideal ≤ 65535 ∧ c.max ≤ 65535) →
      distribute_widths total cols = spec_distribute_widths total cols
      ∧ (total ≤ (cols.map (·.min)).sum → distribute_widths total cols = cols.map (·.min)))
    ∧ distribute_widths 12 [⟨4, 6, 8⟩, ⟨4, 4, 6⟩] = [8, 4] := by
  refine ⟨?_, by decide⟩
  intro total cols htot hb
  have hmins : ∀ c ∈ cols, c.min ≤ 65535 := fun c hc => (hb c hc).1
  have hsum : cols.foldl (fun x c => satAdd x c.min) 0
      = Nat.min ((cols.map (·.min)).sum) 65535 := by
    have := sat_fold_min cols 0 (by omega) hmins
    simpa using this
  by_cases hle : total ≤ (cols.map (·.min)).sum
  · have hrem : total - Nat.min ((cols.map (·.min)).sum) 65535 = 0 := by
      simp only [Nat.min_def]
      split_ifs <;> omega
    have hdist : distribute_widths total cols = cols.map (·.min) := by
      simp only [distribute_widths, hsum, hrem]
      simp
    have hspec : spec_distribute_widths total cols = cols.map (·.min) := by
      unfold spec_distribute_widths
      rw [if_pos hle]
    exact ⟨hdist.trans hspec.symm, fun _ => hdist⟩
  · have hmlt : (cols.map (·.min)).sum < total := by omega
    have hmle : (cols.map (·.min)).sum ≤ 65535 := by omega
    have hminval : Nat.min ((cols.map (·.min)).sum) 65535 = (cols.map (·.min)).sum :=
      Nat.min_eq_left hmle
    have hrem : total - Nat.min ((cols.map (·.min)).sum) 65535
        = total - (cols.map (·.min)).sum := by rw [hminval]
    have hrnz : ¬ (total - (cols.map (·.min)).sum = 0) := by omega
    have hzip2 : ∀ pr ∈ (cols.map (·.min)).zip (cols.map fun c => Nat.max c.ideal c.min),
        pr.1 ≤ 65535 ∧ pr.2 ≤ 65535 := by
      intro pr hpr
      have h1 := List.of_mem_zip hpr
      obtain ⟨ha, hb'⟩ := h1
      simp only [List.mem_map] at ha hb'
      obtain ⟨c1, hc1, he1⟩ := ha
      obtain ⟨c2, hc2, he2⟩ := hb'
      refine ⟨he1 ▸ (hb c1 hc1).1, he2 ▸ ?_⟩
      have := (hb c2 hc2).2.1
      have := (hb c2 hc2).1
      simp only [Nat.max_def]
      split_ifs <;> omega
    have hp2 := grow_pass_eq_spec _ (total - (cols.map (·.min)).sum) hzip2
    have hp2le : ∀ x ∈ (spec_grow
        ((cols.map (·.min)).zip (cols.map fun c => Nat.max c.ideal c.min))
        (total - (cols.map (·.min)).sum)).1, x ≤ 65535 :=
      spec_grow_mem_le 65535 _ _ hzip2
    have hzip3 : ∀ pr ∈ ((spec_grow
        ((cols.map (·.min)).zip (cols.map fun c => Nat.max c.ideal c.min))
        (total - (cols.map (·.min)).sum)).1).zip (cols.map (·.max)),
        pr.1 ≤ 65535 ∧ pr.2 ≤ 65535 := by
      intro pr hpr
      have h1 := List.of_mem_zip hpr
      obtain ⟨ha, hb'⟩ := h1
      simp only [List.mem_map] at hb'
      obtain ⟨c2, hc2, he2⟩ := hb'
      exact ⟨hp2le _ ha, he2 ▸ (hb c2 hc2).2.2⟩
    have hp3 := grow_pass_eq_spec _ (spec_grow
        ((cols.map (·.min)).zip (cols.map fun c => Nat.max c.ideal c.min))
        (total - (cols.map (·.min)).sum)).2 hzip3
    constructor
    · simp only [distribute_widths, spec_distribute_widths, hsum, hrem, if_neg hrnz,
        if_neg hle, hp2, hp3]
    · intro h
      exact absurd h hle

/-- C5 witness: the theorem applied at the scenario input and at a total
below the sum of minimums. -/
theorem distribute_widths_three_phase_witness :
    distribute_widths 12 [⟨4, 6, 8⟩, ⟨4, 4, 6⟩]
      = spec_distribute_widths 12 [⟨4, 6, 8⟩, ⟨4, 4, 6⟩]
    ∧ distribute_widths 5 [⟨4, 6, 8⟩, ⟨4, 4, 6⟩]
      = ([⟨4, 6, 8⟩, ⟨4, 4, 6⟩] : List ColumnWidth).map (·.min) :=
  ⟨(distribute_widths_three_phase.1 12 [⟨4, 6, 8⟩, ⟨4, 4, 6⟩]
      (by omega) (by decide)).1,
   (distribute_widths_three_phase.1 5 [⟨4, 6, 8⟩, ⟨4, 4, 6⟩]
      (by omega) (by decide)).2 (by decide)⟩

lemma list_all_congr {β : Type} {l : List β} {f g : β → Bool}
    (h : ∀ x ∈ l, f x = g x) : l.all f = l.all g := by
  induction l with
  | nil => rfl
  | cons a t ih =>
    simp only [List.all_cons]
    rw [h a (by simp), ih fun x hx => h x (by simp [hx])]

lemma eff_mark_stab (mo : TreeModelOps μ α) (m : μ) (manual : List α)
    (rank : α → Nat) (hrank : ∀ n c, c ∈ mo.children m n → rank c < rank n) :
    ∀ k n f g, rank n < k → rank n < f → rank n < g →
      eff_mark mo m manual f n = eff_mark mo m manual g n := by
  intro k
  induction k with
  | zero => intro n f g hk; omega
  | succ k ih =>
    intro n f g hk hf hg
    cases f with
    | zero => omega
    | succ f =>
      cases g with
      | zero => omega
      | succ g =>
        simp only [eff_mark]
        by_cases hman : n ∈ manual
        · simp [hman]
        · simp only [hman, if_false]
          cases hcs : (mo.children m n).isEmpty with
          | true => simp [hcs]
          | false =>
            simp only [hcs, Bool.false_eq_true, if_false]
            exact list_all_congr fun c hc =>
              ih c f g (by have := hrank n c hc; omega)
                (by have := hrank n c hc; omega) (by have := hrank n c hc; omega)

lemma eff_mark_manual (mo : TreeModelOps μ α) (m : μ) (manual : List α)
    (f : Nat) (n : α) (hf : 0 < f) (hman : n ∈ manual) :
    eff_mark mo m manual f n = true := by
  cases f with
  | zero => omega
  | succ f => simp [eff_mark, hman]

lemma eff_mark_leaf (mo : TreeModelOps μ α) (m : μ) (manual : List α)
    (f : Nat) (n : α) (hf : 0 < f) (hman : n ∉ manual)
    (hcs : (mo.children m n).isEmpty = true) :
    eff_mark mo m manual f n = false := by
  cases f with
  | zero => omega
  | succ f => simp [eff_mark, hman, hcs]

lemma eff_mark_node (mo : TreeModelOps μ α) (m : μ) (manual : List α)
    (rank : α → Nat) (hrank : ∀ n c, c ∈ mo.children m n → rank c < rank n)
    (f : Nat) (n : α) (hf : rank n < f) (hman : n ∉ manual)
    (hcs : (mo.children m n).isEmpty = false) :
    eff_mark mo m manual f n
      = (mo.children m n).all fun c => eff_mark mo m manual f c := by
  cases f with
  | zero => omega
  | succ f =>
    simp only [eff_mark, hman, if_false, hcs, Bool.false_eq_true]
    exact list_all_congr fun c hc =>
      eff_mark_stab mo m manual rank hrank (rank c + 1) c f (f + 1)
        (by omega) (by have := hrank n c hc; omega) (by have := hrank n c hc; omega)

lemma blookup_mem : ∀ (memo : List (α × Bool)) (n : α) (b : Bool),
    blookup memo n = some b → (n, b) ∈ memo := by
  intro memo
  induction memo with
  | nil => intro n b h; cases h
  | cons pr t ih =>
    intro n b h
    obtain ⟨k, v⟩ := pr
    simp only [blookup] at h
    by_cases hk : k = n
    · rw [if_pos hk] at h
      injection h with hv
      subst hk; subst hv
      simp
    · rw [if_neg hk] at h
      simp [ih n b h]

lemma cem_hit (mo : TreeModelOps μ α) (m : μ) (manual : List α) (g : Nat)
    (n : α) (memo : List (α × Bool)) (b : Bool) (h : blookup memo n = some b) :
    compute_effective_mark mo m manual (g + 1) n memo = (b, memo) := by
  simp only [compute_effective_mark, h]

lemma cem_manual (mo : TreeModelOps μ α) (m : μ) (manual : List α) (g : Nat)
    (n : α) (memo : List (α × Bool)) (h : blookup memo n = none)
    (hman : n ∈ manual) :
    compute_effective_mark mo m manual (g + 1) n memo = (true, (n, true) :: memo) := by
  simp only [compute_effective_mark, h, if_pos hman]

lemma cem_leaf (mo : TreeModelOps μ α) (m : μ) (manual : List α) (g : Nat)
    (n : α) (memo : List (α × Bool)) (h : blookup memo n = none)
    (hman : n ∉ manual) (hcs : (mo.children m n).isEmpty = true) :
    compute_effective_mark mo m manual (g + 1) n memo = (false, (n, false) :: memo) := by
  simp only [compute_effective_mark, h, if_neg hman, hcs, if_true]

lemma cem_node (mo : TreeModelOps μ α) (m : μ) (manual : List α) (g : Nat)
    (n : α) (memo : List (α × Bool)) (h : blookup memo n = none)
    (hman : n ∉ manual) (hcs : (mo.children m n).isEmpty = false) :
    compute_effective_mark mo m manual (g + 1) n memo =
      (((mo.children m n).foldl
          (fun acc c => if acc.1 then compute_effective_mark mo m manual g c acc.2 else acc)
          (true, memo)).1,
        (n, ((mo.children m n).foldl
          (fun acc c => if acc.1 then compute_effective_mark mo m manual g c acc.2 else acc)
          (true, memo)).1) ::
        ((mo.children m n).foldl
          (fun acc c => if acc.1 then compute_effective_mark mo m manual g c acc.2 else acc)
          (true, memo)).2) := by
  simp only [compute_effective_mark, h, if_neg hman, hcs, Bool.false_eq_true, if_false]

lemma cem_spec (mo : TreeModelOps μ α) (m : μ) (manual : List α)
    (rank : α → Nat) (fuel : Nat)
    (hrank : ∀ n c, c ∈ mo.children m n → rank c < rank n)
    (hfuel : ∀ n, rank n < fuel) :
    ∀ g n memo, rank n < g →
      (∀ pr ∈ memo, pr.2 = eff_mark mo m manual fuel pr.1) →
      (∀ pr ∈ memo, pr.2 = true → pr.1 ∉ manual →
        ∀ c ∈ mo.children m pr.1, ∃ b, (c, b) ∈ memo) →
      (compute_effective_mark mo m manual g n memo).1 = eff_mark mo m manual fuel n
      ∧ (∀ pr ∈ (compute_effective_mark mo m manual g n memo).2,
          pr.2 = eff_mark mo m manual fuel pr.1)
      ∧ (∀ pr ∈ (compute_effective_mark mo m manual g n memo).2, pr.2 = true →
          pr.1 ∉ manual → ∀ c ∈ mo.children m pr.1,
            ∃ b, (c, b) ∈ (compute_effective_mark mo m manual g n memo).2)
      ∧ (∀ pr ∈ memo, pr ∈ (compute_effective_mark mo m manual g n memo).2)
      ∧ (n, eff_mark mo m manual fuel n) ∈ (compute_effective_mark mo m manual g n memo).2 := by
  intro g
  induction g with
  | zero => intro n memo hg; omega
  | succ g ih =>
    intro n memo hg hcoh hclosed
    cases hlook : blookup memo n with
    | some b =>
      have hmem : (n, b) ∈ memo := blookup_mem memo n b hlook
      have hbval : b = eff_mark mo m manual fuel n := hcoh _ hmem
      rw [cem_hit mo m manual g n memo b hlook]
      exact ⟨hbval, hcoh, fun pr hpr h1 h2 c hc => hclosed pr hpr h1 h2 c hc,
        fun pr hpr => hpr, hbval ▸ hmem⟩
    | none =>
      by_cases hman : n ∈ manual
      · have heff : eff_mark mo m manual fuel n = true :=
          eff_mark_manual mo m manual fuel n (by have := hfuel n; omega) hman
        rw [cem_manual mo m manual g n memo hlook hman]
        refine ⟨heff.symm, ?_, ?_, ?_, ?_⟩
        · intro pr hpr
          rcases List.mem_cons.mp hpr with rfl | hpr
          · exact heff.symm
          · exact hcoh _ hpr
        · intro pr hpr h1 h2 c hc
          rcases List.mem_cons.mp hpr with rfl | hpr
          · exact absurd hman h2
          · obtain ⟨b, hb⟩ := hclosed pr hpr h1 h2 c hc
            exact ⟨b, by simp [hb]⟩
        · intro pr hpr; simp [hpr]
        · rw [heff]; simp
      · by_cases hcs : (mo.children m n).isEmpty
        · have heff : eff_mark mo m manual fuel n = false :=
            eff_mark_leaf mo m manual fuel n (by have := hfuel n; omega) hman hcs
          rw [cem_leaf mo m manual g n memo hlook hman hcs]
          refine ⟨heff.symm, ?_, ?_, ?_, ?_⟩
          · intro pr hpr
            rcases List.mem_cons.mp hpr with rfl | hpr
            · exact heff.symm
            · exact hcoh _ hpr
          · intro pr hpr h1 h2 c hc
            rcases List.mem_cons.mp hpr with rfl | hpr
            · cases h1
            · obtain ⟨b, hb⟩ := hclosed pr hpr h1 h2 c hc
              exact ⟨b, by simp [hb]⟩
          · intro pr hpr; simp [hpr]
          · rw [heff]; simp
        · have hcs' : (mo.children m n).isEmpty = false := by
            cases h' : (mo.children m n).isEmpty
            · rfl
            · exact absurd h' hcs
          have hranks : ∀ c ∈ mo.children m n, rank c < g := by
            intro c hc
            have := hrank n c hc
            omega
          have fold_spec : ∀ (cs : List α), (∀ c ∈ cs, rank c < g) →
              ∀ (b₀ : Bool) (memo₀ : List (α × Bool)),
              (∀ pr ∈ memo₀, pr.2 = eff_mark mo m manual fuel pr.1) →
              (∀ pr ∈ memo₀, pr.2 = true → pr.1 ∉ manual →
                ∀ c ∈ mo.children m pr.1, ∃ b, (c, b) ∈ memo₀) →
              (cs.foldl
                (fun acc c => if acc.1 then compute_effective_mark mo m manual g c acc.2 else acc)
                (b₀, memo₀)).1 = (b₀ && cs.all fun c => eff_mark mo m manual fuel c)
              ∧ (∀ pr ∈ (cs.foldl
                  (fun acc c => if acc.1 then compute_effective_mark mo m manual g c acc.2 else acc)
                  (b₀, memo₀)).2, pr.2 = eff_mark mo m manual fuel pr.1)
              ∧ (∀ pr ∈ (cs.foldl
                  (fun acc c => if acc.1 then compute_effective_mark mo m manual g c acc.2 else acc)
                  (b₀, memo₀)).2, pr.2 = true → pr.1 ∉ manual →
                  ∀ c ∈ mo.children m pr.1, ∃ b, (c, b) ∈ (cs.foldl
                    (fun acc c => if acc.1 then compute_effective_mark mo m manual g c acc.2 else acc)
                    (b₀, memo₀)).2)
              ∧ (∀ pr ∈ memo₀, pr ∈ (cs.foldl
                  (fun acc c => if acc.1 then compute_effective_mark mo m manual g c acc.2 else acc)
                  (b₀, memo₀)).2)
              ∧ ((cs.foldl
                  (fun acc c => if acc.1 then compute_effective_mark mo m manual g c acc.2 else acc)
                  (b₀, memo₀)).1 = true →
                  ∀ c ∈ cs, (c, eff_mark mo m manual fuel c) ∈ (cs.foldl
                    (fun acc c => if acc.1 then compute_effective_mark mo m manual g c acc.2 else acc)
                    (b₀, memo₀)).2) := by
            intro cs
            induction cs with
            | nil =>
              intro _ b₀ memo₀ hcoh₀ hclosed₀
              refine ⟨by simp, hcoh₀, ?_, fun pr hpr => hpr, ?_⟩
              · intro pr hpr h1 h2 c hc
                exact hclosed₀ pr hpr h1 h2 c hc
              · intro _ c hc; cases hc
            | cons c rest ihl =>
              intro hrk b₀ memo₀ hcoh₀ hclosed₀
              cases b₀ with
              | false =>
                simp only [List.foldl_cons, Bool.false_eq_true, if_false]
                have h := ihl (fun x hx => hrk x (by simp [hx])) false memo₀ hcoh₀ hclosed₀
                refine ⟨by rw [h.1]; simp, h.2.1, h.2.2.1, h.2.2.2.1, ?_⟩
                intro habs
                rw [h.1] at habs
                simp at habs
              | true =>
                simp only [List.foldl_cons, if_true]
                have hc := ih c memo₀ (hrk c (by simp)) hcoh₀ hclosed₀
                have hrest := ihl (fun x hx => hrk x (by simp [hx]))
                  (compute_effective_mark mo m manual g c memo₀).1
                  (compute_effective_mark mo m manual g c memo₀).2
                  hc.2.1 hc.2.2.1
                refine ⟨?_, hrest.2.1, hrest.2.2.1, ?_, ?_⟩
                · rw [hrest.1, hc.1]
                  simp [Bool.and_assoc]
                · intro pr hpr
                  exact hrest.2.2.2.1 _ (hc.2.2.2.1 pr hpr)
                · intro hall c' hc'
                  rcases List.mem_cons.mp hc' with rfl | hc'
                  · have hctrue : eff_mark mo m manual fuel c' = true := by
                      rw [hrest.1, hc.1] at hall
                      exact (Bool.and_eq_true_iff.mp hall).1
                    exact hrest.2.2.2.1 _ (hctrue ▸ hc.2.2.2.2)
                  · exact hrest.2.2.2.2 hall c' hc'
          have hf := fold_spec (mo.children m n) hranks true memo hcoh hclosed
          have heff : eff_mark mo m manual fuel n
              = (mo.children m n).all fun c => eff_mark mo m manual fuel c :=
            eff_mark_node mo m manual rank hrank fuel n (hfuel n) hman hcs'
          rw [cem_node mo m manual g n memo hlook hman hcs']
          have hval : ((mo.children m n).foldl
              (fun acc c => if acc.1 then compute_effective_mark mo m manual g c acc.2 else acc)
              (true, memo)).1 = eff_mark mo m manual fuel n := by
            rw [hf.1, heff]
            simp
          refine ⟨hval, ?_, ?_, ?_, ?_⟩
          · intro pr hpr
            rcases List.mem_cons.mp hpr with rfl | hpr
            · simp [hval]
            · exact hf.2.1 _ hpr
          · intro pr hpr h1 h2 c hc
            rcases List.mem_cons.mp hpr with rfl | hpr
            · have : eff_mark mo m manual fuel n = true := by
                rw [← hval]; exact h1
              have hall : ((mo.children m n).foldl
                  (fun acc c => if acc.1 then compute_effective_mark mo m manual g c acc.2 else acc)
                  (true, memo)).1 = true := by rw [hval]; exact this
              obtain hcmem := hf.2.2.2.2 hall c hc
              exact ⟨eff_mark mo m manual fuel c, List.mem_cons_of_mem _ hcmem⟩
            · obtain ⟨b, hb⟩ := hf.2.2.1 pr hpr h1 h2 c hc
              exact ⟨b, by simp [hb]⟩
          · intro pr hpr
            simp [hf.2.2.2.1 pr hpr]
          · rw [← hval]
            simp

lemma seeds_fold_spec (mo : TreeModelOps μ α) (m : μ) (manual : List α)
    (rank : α → Nat) (fuel : Nat)
    (hrank : ∀ n c, c ∈ mo.children m n → rank c < rank n)
    (hfuel : ∀ n, rank n < fuel) :
    ∀ (seeds : List α) (memo : List (α × Bool)),
      (∀ pr ∈ memo, pr.2 = eff_mark mo m manual fuel pr.1) →
      (∀ pr ∈ memo, pr.2 = true → pr.1 ∉ manual →
        ∀ c ∈ mo.children m pr.1, ∃ b, (c, b) ∈ memo) →
      (∀ pr ∈ seeds.foldl
          (fun mem n => (compute_effective_mark mo m manual fuel n mem).2) memo,
        pr.2 = eff_mark mo m manual fuel pr.1)
      ∧ (∀ pr ∈ seeds.foldl
          (fun mem n => (compute_effective_mark mo m manual fuel n mem).2) memo,
          pr.2 = true → pr.1 ∉ manual → ∀ c ∈ mo.children m pr.1,
            ∃ b, (c, b) ∈ seeds.foldl
              (fun mem n => (compute_effective_mark mo m manual fuel n mem).2) memo)
      ∧ (∀ pr ∈ memo, pr ∈ seeds.foldl
          (fun mem n => (compute_effective_mark mo m manual fuel n mem).2) memo)
      ∧ (∀ n ∈ seeds, (n, eff_mark mo m manual fuel n) ∈ seeds.foldl
          (fun mem n => (compute_effective_mark mo m manual fuel n mem).2) memo) := by
  intro seeds
  induction seeds with
  | nil =>
    intro memo hcoh hclosed
    exact ⟨hcoh, hclosed, fun pr hpr => hpr, fun n hn => absurd hn (by simp)⟩
  | cons sd rest ih =>
    intro memo hcoh hclosed
    have hc := cem_spec mo m manual rank fuel hrank hfuel fuel sd memo (hfuel sd)
      hcoh hclosed
    have hr := ih (compute_effective_mark mo m manual fuel sd memo).2 hc.2.1 hc.2.2.1
    simp only [List.foldl_cons]
    refine ⟨hr.1, hr.2.1, ?_, ?_⟩
    · intro pr hpr
      exact hr.2.2.1 _ (hc.2.2.2.1 pr hpr)
    · intro n hn
      rcases List.mem_cons.mp hn with rfl | hn
      · exact hr.2.2.1 _ hc.2.2.2.2
      · exact hr.2.2.2 n hn

/-- C4 counterexample: over the tree `0 → {1, 2}`, `2 → {3}` with manual
mark `{3}` and only the collapsed root visible, a mark recompute (seeded
from the visible rows, the root and the manual marks, short-circuiting the
all-children walk) never examines node 2, so the effective-mark query at 2
returns false even though 2 is a node with a non-empty child list all of
whose children are effectively marked — refuting the claim's "for every
node id" iff. -/
theorem effective_mark_query_offseed_cex :
    markPreState.marks_dirty = true
    ∧ node_is_marked markState 2 = false
    ∧ 2 ∉ markPreState.manual_marked
    ∧ testOps.children markTree 2 = [3]
    ∧ node_is_marked markState 3 = true :=
  ⟨by decide, by decide, by decide, by decide, by decide⟩

/-- C4 amended: after a mark recompute, the effective-mark query satisfies
the claim's iff at every seed node — every visible node, the root, and
every manually marked node (the recompute guarantees correctness exactly
for the nodes it examines, which include all seeds); and for every node
whatsoever, a childless node that is not manually marked is never
effectively marked. -/
theorem effective_mark_query_correct_on_seeds {μ α : Type} [DecidableEq α]
    (mo : TreeModelOps μ α) (m : μ) (rank : α → Nat) (fuel : Nat)
    (s : TreeListViewState α)
    (hrank : ∀ n c, c ∈ mo.children m n → rank c < rank n)
    (hfuel : ∀ n, rank n < fuel)
    (hdirty : s.marks_dirty = true) :
    (∀ n, (n ∈ s.visible_nodes.map (·.id) ∨ mo.root m = some n ∨ n ∈ s.manual_marked) →
      (node_is_marked (ensure_mark_cache mo m fuel s) n = true ↔
        (n ∈ s.manual_marked ∨
          (mo.children m n ≠ [] ∧ ∀ c ∈ mo.children m n,
            node_is_marked (ensure_mark_cache mo m fuel s) c = true))))
    ∧ (∀ n, mo.children m n = [] → n ∉ s.manual_marked →
        node_is_marked (ensure_mark_cache mo m fuel s) n = false) := by
  have hs' : (ensure_mark_cache mo m fuel s).effective_marked
      = (((s.visible_nodes.map (·.id)
            ++ (match mo.root m with | some r => [r] | none => [])
            ++ s.manual_marked).dedup).foldl
          (fun mem n => (compute_effective_mark mo m s.manual_marked fuel n mem).2)
          []).filterMap (fun pr => if pr.2 then some pr.1 else none) := by
    unfold ensure_mark_cache
    rw [hdirty]
    rfl
  have hM := seeds_fold_spec mo m s.manual_marked rank fuel hrank hfuel
    ((s.visible_nodes.map (·.id)
        ++ (match mo.root m with | some r => [r] | none => [])
        ++ s.manual_marked).dedup) []
    (by intro pr hpr; cases hpr) (by intro pr hpr; cases hpr)
  have hchar : ∀ y, node_is_marked (ensure_mark_cache mo m fuel s) y = true ↔
      (y, true) ∈ ((s.visible_nodes.map (·.id)
          ++ (match mo.root m with | some r => [r] | none => [])
          ++ s.manual_marked).dedup).foldl
        (fun mem n => (compute_effective_mark mo m s.manual_marked fuel n mem).2) [] := by
    intro y
    simp only [node_is_marked, hs', decide_eq_true_eq, List.mem_filterMap]
    constructor
    · rintro ⟨pr, hpr, hf⟩
      obtain ⟨a, b⟩ := pr
      cases b with
      | false => simp at hf
      | true =>
        simp only [if_true] at hf
        injection hf with ha
        subst ha
        exact hpr
    · intro h
      exact ⟨(y, true), h, by simp⟩
  constructor
  · intro n hseed
    have hseedmem : n ∈ (s.visible_nodes.map (·.id)
        ++ (match mo.root m with | some r => [r] | none => [])
        ++ s.manual_marked).dedup := by
      rw [List.mem_dedup]
      rcases hseed with h | h | h
      · simp [h]
      · simp [h]
      · simp [h]
    have hentry := hM.2.2.2 n hseedmem
    constructor
    · intro hmark
      have h1 := (hchar n).mp hmark
      have heff : eff_mark mo m s.manual_marked fuel n = true := (hM.1 _ h1).symm
      by_cases hman : n ∈ s.manual_marked
      · exact Or.inl hman
      · refine Or.inr ?_
        have hcs : (mo.children m n).isEmpty = false := by
          cases hcsb : (mo.children m n).isEmpty with
          | false => rfl
          | true =>
            rw [eff_mark_leaf mo m s.manual_marked fuel n
              (by have := hfuel n; omega) hman hcsb] at heff
            cases heff
        have hne : mo.children m n ≠ [] := by
          intro hnil
          rw [hnil] at hcs
          cases hcs
        refine ⟨hne, ?_⟩
        intro c hc
        obtain ⟨b, hb⟩ := hM.2.1 _ h1 rfl hman c hc
        have hbval : b = eff_mark mo m s.manual_marked fuel c := hM.1 _ hb
        have hall : (mo.children m n).all
            (fun c => eff_mark mo m s.manual_marked fuel c) = true := by
          rw [← eff_mark_node mo m s.manual_marked rank hrank fuel n (hfuel n) hman hcs]
          exact heff
        have hceff : eff_mark mo m s.manual_marked fuel c = true :=
          List.all_eq_true.mp hall c hc
        refine (hchar c).mpr ?_
        rw [hbval, hceff] at hb
        exact hb
    · intro hrhs
      by_cases hman : n ∈ s.manual_marked
      · have heff : eff_mark mo m s.manual_marked fuel n = true :=
          eff_mark_manual mo m s.manual_marked fuel n (by have := hfuel n; omega) hman
        exact (hchar n).mpr (heff ▸ hentry)
      · rcases hrhs with hman' | ⟨hne, hall⟩
        · exact absurd hman' hman
        · have hcs : (mo.children m n).isEmpty = false := by
            cases hcsb : (mo.children m n).isEmpty with
            | false => rfl
            | true => exact absurd (List.isEmpty_iff.mp hcsb) hne
          have heach : ∀ c ∈ mo.children m n,
              eff_mark mo m s.manual_marked fuel c = true := by
            intro c hc
            exact (hM.1 _ ((hchar c).mp (hall c hc))).symm
          have heff : eff_mark mo m s.manual_marked fuel n = true := by
            rw [eff_mark_node mo m s.manual_marked rank hrank fuel n (hfuel n) hman hcs]
            exact List.all_eq_true.mpr heach
          exact (hchar n).mpr (heff ▸ hentry)
  · intro n hcs0 hman
    cases hv : node_is_marked (ensure_mark_cache mo m fuel s) n with
    | false => rfl
    | true =>
      exfalso
      have h1 := (hchar n).mp hv
      have heff : eff_mark mo m s.manual_marked fuel n = true := (hM.1 _ h1).symm
      rw [eff_mark_leaf mo m s.manual_marked fuel n (by have := hfuel n; omega) hman
        (by rw [hcs0]; rfl)] at heff
      cases heff

/-- C4 amended witness: over the counterexample tree, the iff holds at the
manually marked seed 3, and the childless unmarked node 1 is reported
unmarked. -/
theorem effective_mark_query_correct_on_seeds_witness :
    (node_is_marked markState 3 = true ↔
      (3 ∈ markPreState.manual_marked ∨
        (testOps.children markTree 3 ≠ [] ∧ ∀ c ∈ testOps.children markTree 3,
          node_is_marked markState c = true)))
    ∧ node_is_marked markState 1 = false := by
  have hrank : ∀ n c, c ∈ testOps.children markTree n → (4 - c) < (4 - n) := by
    intro n c hc
    match n with
    | 0 =>
      simp [testOps, markTree] at hc
      rcases hc with rfl | rfl <;> omega
    | 1 => simp [testOps, markTree] at hc
    | 2 =>
      simp [testOps, markTree] at hc
      subst hc
      omega
    | 3 => simp [testOps, markTree] at hc
    | (n + 4) =>
      exfalso
      have : markTree.getD (n + 4) [] = [] :=
        List.getD_eq_default _ _ (by simp [markTree])
      simp only [testOps] at hc
      rw [this] at hc
      cases hc
  have h := effective_mark_query_correct_on_seeds testOps markTree (fun n => 4 - n) 10
    markPreState hrank (by intro n; show 4 - n < 10; omega) (by decide)
  exact ⟨h.1 3 (Or.inr (Or.inr (by decide))), h.2 1 (by decide) (by decide)⟩

lemma list_any_congr {β : Type} {l : List β} {f g : β → Bool}
    (h : ∀ x ∈ l, f x = g x) : l.any f = l.any g := by
  induction l with
  | nil => rfl
  | cons a t ih =>
    simp only [List.any_cons]
    rw [h a (by simp), ih fun x hx => h x (by simp [hx])]

lemma mapIsLast_congr {β γ : Type} {g₁ g₂ : β → Bool → List γ}
    (h : ∀ c b, g₁ c b = g₂ c b) : ∀ l, mapIsLast g₁ l = mapIsLast g₂ l := by
  intro l
  induction l with
  | nil => rfl
  | cons c t ih => simp only [mapIsLast, h, ih]

lemma shm_stab (mo : TreeModelOps μ α) (m : μ) (p : μ → α → Bool)
    (rank : α → Nat) (hrank : ∀ n c, c ∈ mo.children m n → rank c < rank n) :
    ∀ k n f g, rank n < k → rank n < f → rank n < g →
      subtree_has_match mo m p f n = subtree_has_match mo m p g n := by
  intro k
  induction k with
  | zero => intro n f g hk; omega
  | succ k ih =>
    intro n f g hk hf hg
    cases f with
    | zero => omega
    | succ f =>
      cases g with
      | zero => omega
      | succ g =>
        simp only [subtree_has_match]
        congr 1
        exact list_any_congr fun c hc =>
          ih c f g (by have := hrank n c hc; omega)
            (by have := hrank n c hc; omega) (by have := hrank n c hc; omega)

lemma shm_rank_bound (mo : TreeModelOps μ α) (m : μ) (p : μ → α → Bool)
    (rank : α → Nat) (hrank : ∀ n c, c ∈ mo.children m n → rank c < rank n) :
    ∀ g n, subtree_has_match mo m p g n = true →
      ∃ y, p m y = true ∧ rank y ≤ rank n := by
  intro g
  induction g with
  | zero => intro n h; cases h
  | succ g ih =>
    intro n h
    simp only [subtree_has_match, Bool.or_eq_true] at h
    rcases h with h | h
    · exact ⟨n, h, Nat.le_refl _⟩
    · obtain ⟨c, hc, hcm⟩ := List.any_eq_true.mp h
      obtain ⟨y, hy, hyr⟩ := ih c hcm
      exact ⟨y, hy, Nat.le_trans hyr (Nat.le_of_lt (hrank n c hc))⟩

lemma findSome_eq_none {β γ : Type} (g : β → Option γ) :
    ∀ l : List β, (∀ c ∈ l, g c = none) → l.findSome? g = none := by
  intro l
  induction l with
  | nil => intro; rfl
  | cons c t ih =>
    intro h
    simp only [List.findSome?]
    rw [h c (by simp)]
    exact ih fun x hx => h x (by simp [hx])

lemma findSome_of_filter_single {β γ : Type} (q : β → Bool) (g : β → Option γ) :
    ∀ (l : List β) (a : β) (pa : γ), l.filter q = [a] →
      (∀ c ∈ l, q c = false → g c = none) → g a = some pa →
      l.findSome? g = some pa := by
  intro l
  induction l with
  | nil => intro a pa h; cases h
  | cons c t ih =>
    intro a pa hfil hnone hga
    cases hq : q c with
    | true =>
      simp only [List.filter_cons, hq, if_true] at hfil
      injection hfil with hca hrest
      subst hca
      simp only [List.findSome?, hga]
    | false =>
      simp only [List.filter_cons, hq, Bool.false_eq_true, if_false] at hfil
      simp only [List.findSome?, hnone c (by simp) hq]
      exact ih a pa hfil (fun x hx hqx => hnone x (by simp [hx]) hqx) hga

lemma dfs_find_path_none (mo : TreeModelOps μ α) (m : μ) (p : μ → α → Bool)
    (X : α) (rank : α → Nat)
    (hrank : ∀ n c, c ∈ mo.children m n → rank c < rank n)
    (hp : ∀ y, p m y = true ↔ y = X) :
    ∀ k n, rank n < k → ∀ g pf parent, rank n < g → rank n < pf →
      subtree_has_match mo m p g n = false →
      dfs_find_path mo m X pf n parent = none := by
  intro k
  induction k with
  | zero => intro n hk; omega
  | succ k ih =>
    intro n hk g pf parent hg hpf hshm
    cases g with
    | zero => omega
    | succ g =>
      cases pf with
      | zero => omega
      | succ pf =>
        have hpn : p m n = false := by
          cases hpn' : p m n with
          | false => rfl
          | true => simp [subtree_has_match, hpn'] at hshm
        have hchild : ∀ c ∈ mo.children m n, subtree_has_match mo m p g c = false := by
          intro c hc
          cases hcm : subtree_has_match mo m p g c with
          | false => rfl
          | true =>
            exfalso
            have hany : (mo.children m n).any
                (fun c => subtree_has_match mo m p g c) = true :=
              List.any_eq_true.mpr ⟨c, hc, hcm⟩
            simp [subtree_has_match, hpn, hany] at hshm
        have hnx : n ≠ X := by
          intro he
          subst he
          rw [(hp n).mpr rfl] at hpn
          cases hpn
        simp only [dfs_find_path, if_neg hnx]
        have hfs : (mo.children m n).findSome?
            (fun c => dfs_find_path mo m X pf c (some n)) = none := by
          apply findSome_eq_none
          intro c hc
          have hcr := hrank n c hc
          exact ih c (by omega) g pf (some n) (by omega) (by omega) (hchild c hc)
        rw [hfs]

lemma filtered_chain_main (mo : TreeModelOps μ α) (m : μ) (p : μ → α → Bool)
    (X : α) (rank : α → Nat)
    (hrank : ∀ n c, c ∈ mo.children m n → rank c < rank n)
    (hp : ∀ y, p m y = true ↔ y = X)
    (sf : Nat) (hsf : ∀ y, rank y < sf)
    (hu : ∀ n, ((mo.children m n).filter fun c => subtree_has_match mo m p sf c).length ≤ 1)
    (exp : List (Option α × α)) (cfg : TreeFilterConfig)
    (hauto : cfg.auto_expand = true) :
    ∀ k n, rank n < k → ∀ f pf level parent tail, rank n < f → rank n < pf →
      subtree_has_match mo m p sf n = true →
      ((build_visible_nodes_filtered mo m exp p cfg sf f n level parent tail).map (·.id)
        = (dfs_find_path mo m X pf n parent).elim [] (List.map Prod.snd))
      ∧ (dfs_find_path mo m X pf n parent).isSome = true := by
  intro k
  induction k with
  | zero => intro n hk; omega
  | succ k ih =>
    intro n hk f pf level parent tail hf hpf hshm
    cases f with
    | zero => omega
    | succ f =>
      cases pf with
      | zero => omega
      | succ pf =>
        by_cases hx : n = X
        · have hpx : p m n = true := (hp n).mpr hx
          have hvcs : ((mo.children m n).filter
              fun c => subtree_has_match mo m p sf c) = [] := by
            cases hfil : (mo.children m n).filter
                fun c => subtree_has_match mo m p sf c with
            | nil => rfl
            | cons a t =>
              exfalso
              have ha : a ∈ (mo.children m n).filter
                  fun c => subtree_has_match mo m p sf c := by rw [hfil]; simp
              have hmem := List.mem_filter.mp ha
              obtain ⟨y, hy, hyr⟩ :=
                shm_rank_bound mo m p rank hrank sf a hmem.2
              have hyx := (hp y).mp hy
              have hr1 := hrank n a hmem.1
              rw [hyx] at hyr
              rw [hx] at hr1
              omega
          simp only [build_visible_nodes_filtered, hvcs, hpx, dfs_find_path, if_pos hx]
          simp [hx]
        · have hpn : p m n = false := by
            cases hpn' : p m n with
            | false => rfl
            | true => exact absurd ((hp n).mp hpn') hx
          -- some child subtree contains the match
          have hex : ∃ c ∈ mo.children m n, subtree_has_match mo m p sf c = true := by
            cases hsfv : sf with
            | zero => have := hsf n; omega
            | succ sf' =>
              rw [hsfv] at hshm
              simp only [subtree_has_match, hpn, Bool.false_or] at hshm
              obtain ⟨c, hc, hcm⟩ := List.any_eq_true.mp hshm
              refine ⟨c, hc, ?_⟩
              have hcr := hrank n c hc
              have hst := shm_stab mo m p rank hrank (rank c + 1) c sf' sf
                (by omega) (by have := hsf n; omega) (hsf c)
              rw [← hsfv, ← hst]
              exact hcm
          obtain ⟨c0, hc0, hc0m⟩ := hex
          have hfil : ∃ a, ((mo.children m n).filter
              fun c => subtree_has_match mo m p sf c) = [a] := by
            have hmem : c0 ∈ (mo.children m n).filter
                fun c => subtree_has_match mo m p sf c :=
              List.mem_filter.mpr ⟨hc0, hc0m⟩
            cases hfil' : (mo.children m n).filter
                fun c => subtree_has_match mo m p sf c with
            | nil => rw [hfil'] at hmem; cases hmem
            | cons a t =>
              have hlen := hu n
              rw [hfil'] at hlen
              simp only [List.length_cons] at hlen
              have ht : t = [] := by
                cases t with
                | nil => rfl
                | cons b t' => simp at hlen
              exact ⟨a, by rw [ht]⟩
          obtain ⟨a, hfila⟩ := hfil
          have hamem := List.mem_filter.mp (by rw [hfila]; simp :
            a ∈ (mo.children m n).filter fun c => subtree_has_match mo m p sf c)
          have har := hrank n a hamem.1
          have hihm := ih a (by omega) f pf (level + 1) (some n) (tail ++ [true])
            (by omega) (by omega) hamem.2
          obtain ⟨pa, hpa⟩ := Option.isSome_iff_exists.mp hihm.2
          have hfs : (mo.children m n).findSome?
              (fun c => dfs_find_path mo m X pf c (some n)) = some pa := by
            apply findSome_of_filter_single
              (fun c => subtree_has_match mo m p sf c) _ _ a pa hfila
            · intro c hc hqc
              have hcr := hrank n c hc
              exact dfs_find_path_none mo m p X rank hrank hp (rank c + 1) c
                (Nat.lt_succ_self _) sf pf (some n) (hsf c) (by omega) hqc
            · exact hpa
          have hbuild : build_visible_nodes_filtered mo m exp p cfg sf (f + 1) n
              level parent tail
              = ⟨n, level, parent, !(mo.children m n).isEmpty, tail⟩ ::
                build_visible_nodes_filtered mo m exp p cfg sf f a (level + 1)
                  (some n) (tail ++ [true]) := by
            simp only [build_visible_nodes_filtered, hfila, hpn, hauto]
            simp [mapIsLast]
          have hdfs : dfs_find_path mo m X (pf + 1) n parent
              = some ((parent, n) :: pa) := by
            simp only [dfs_find_path, if_neg hx, hfs]
          refine ⟨?_, by rw [hdfs]; rfl⟩
          rw [hbuild, hdfs]
          have hiha := hihm.1
          rw [hpa] at hiha
          simp only [Option.elim_some] at hiha
          simp only [List.map_cons, Option.elim_some]
          rw [hiha]

lemma build_filtered_exp_irrel (mo : TreeModelOps μ α) (m : μ)
    (p : μ → α → Bool) (cfg : TreeFilterConfig) (hauto : cfg.auto_expand = true)
    (sf : Nat) :
    ∀ (f : Nat) (exp : List (Option α × α)) (n : α) (level : Nat)
      (parent : Option α) (tail : List Bool),
      build_visible_nodes_filtered mo m exp p cfg sf f n level parent tail
        = build_visible_nodes_filtered mo m [] p cfg sf f n level parent tail := by
  intro f
  induction f with
  | zero => intro exp n level parent tail; rfl
  | succ f ihf =>
    intro exp n level parent tail
    have hmap :
        mapIsLast
          (fun c isLast => build_visible_nodes_filtered mo m exp p cfg sf f c
            (level + 1) (some n) (tail ++ [isLast]))
          ((mo.children m n).filter fun c => subtree_has_match mo m p sf c)
        = mapIsLast
          (fun c isLast => build_visible_nodes_filtered mo m [] p cfg sf f c
            (level + 1) (some n) (tail ++ [isLast]))
          ((mo.children m n).filter fun c => subtree_has_match mo m p sf c) :=
      mapIsLast_congr (fun c b => ihf exp c (level + 1) (some n) (tail ++ [b])) _
    simp only [build_visible_nodes_filtered, hauto, Bool.true_or, hmap]

lemma ensure_filtered_visible_of_dirty (mo : TreeModelOps μ α) (m : μ)
    (p : μ → α → Bool) (cfg : TreeFilterConfig) (sfuel fuel : Nat)
    (s : TreeListViewState α) (hdirty : s.dirty = true) (hen : cfg.enabled = true)
    (r : α) (hroot : mo.root m = some r) :
    (ensure_visible_nodes_filtered mo m p cfg sfuel fuel s).visible_nodes
      = build_visible_nodes_filtered mo m s.expanded p cfg sfuel fuel r 0 none [] := by
  unfold ensure_visible_nodes_filtered
  rw [hdirty, hen, hroot]
  simp only [Bool.not_true, Bool.false_eq_true, if_false]
  rw [clamp_selection_visible]

/-- C3: with filtering enabled, auto-expand on and a predicate matching
exactly one node `X` of a true tree, the filtered row computation produces
precisely the root-to-`X` path — `X` and every ancestor of `X`, nothing else
— independent of the manual expansion set; on the scenario tree with the
filter matching only id 4, the visible ids are exactly `[0, 1, 4]` for every
expansion set. -/
theorem filtered_view_is_ancestor_chain :
    (∀ (μ α : Type) [DecidableEq α] (mo : TreeModelOps μ α) (m : μ)
      (p : μ → α → Bool) (X : α) (rank : α → Nat) (fuel : Nat)
      (cfg : TreeFilterConfig) (s : TreeListViewState α) (r : α),
      (∀ n c, c ∈ mo.children m n → rank c < rank n) →
      (∀ y, rank y < fuel) →
      (∀ y, p m y = true ↔ y = X) →
      (∀ n, ((mo.children m n).filter
        fun c => subtree_has_match mo m p fuel c).length ≤ 1) →
      cfg.enabled = true → cfg.auto_expand = true →
      s.dirty = true → mo.root m = some r →
      subtree_has_match mo m p fuel r = true →
      (((ensure_visible_nodes_filtered mo m p cfg fuel fuel s).visible_nodes.map (·.id)
          = (dfs_find_path mo m X fuel r none).elim [] (List.map Prod.snd))
        ∧ (dfs_find_path mo m X fuel r none).isSome = true))
    ∧ ∀ exp : List (Option Nat × Nat),
        (ensure_visible_nodes_filtered testOps testTree (fun _ n => n == 4)
            TreeFilterConfig.enabledCfg 10 10
            { TreeListViewState.new with expanded := exp }).visible_nodes.map (·.id)
          = [0, 1, 4] := by
  constructor
  · intro μ α _ mo m p X rank fuel cfg s r hrank hfuel hp hu hen hauto hdirty hroot hshm
    rw [ensure_filtered_visible_of_dirty mo m p cfg fuel fuel s hdirty hen r hroot]
    exact filtered_chain_main mo m p X rank hrank hp fuel hfuel hu s.expanded cfg hauto
      (rank r + 1) r (Nat.lt_succ_self _) fuel fuel 0 none [] (hfuel r) (hfuel r) hshm
  · intro exp
    rw [ensure_filtered_visible_of_dirty testOps testTree (fun _ n => n == 4)
      TreeFilterConfig.enabledCfg 10 10 { TreeListViewState.new with expanded := exp }
      rfl rfl 0 rfl]
    rw [build_filtered_exp_irrel testOps testTree (fun _ n => n == 4)
      TreeFilterConfig.enabledCfg rfl 10]
    decide

/-- C3 witness: at the scenario tree with the filter matching only id 4 and
rank function `5 - n`, the filtered rows from a fresh dirty state equal the
root-to-4 path found by the source's own path finder. -/
theorem filtered_view_is_ancestor_chain_witness :
    ((ensure_visible_nodes_filtered testOps testTree (fun _ n => n == 4)
        TreeFilterConfig.enabledCfg 10 10 TreeListViewState.new).visible_nodes.map (·.id)
      = (dfs_find_path testOps testTree 4 10 0 none).elim [] (List.map Prod.snd))
    ∧ (dfs_find_path testOps testTree 4 10 0 none).isSome = true := by
  have hrank5 : ∀ n c, c ∈ testOps.children testTree n → (5 - c) < (5 - n) := by
    intro n c hc
    match n with
    | 0 =>
      simp [testOps, testTree] at hc
      rcases hc with rfl | rfl <;> omega
    | 1 =>
      simp [testOps, testTree] at hc
      rcases hc with rfl | rfl <;> omega
    | 2 => simp [testOps, testTree] at hc
    | 3 => simp [testOps, testTree] at hc
    | 4 => simp [testOps, testTree] at hc
    | (n + 5) =>
      exfalso
      have h5 : testTree.getD (n + 5) [] = [] :=
        List.getD_eq_default _ _ (by simp [testTree])
      simp only [testOps] at hc
      rw [h5] at hc
      cases hc
  have hu : ∀ n, ((testOps.children testTree n).filter
      fun c => subtree_has_match testOps testTree (fun _ n => n == 4) 10 c).length ≤ 1 := by
    intro n
    match n with
    | 0 => decide
    | 1 => decide
    | 2 => decide
    | 3 => decide
    | 4 => decide
    | (n + 5) =>
      have h5 : testTree.getD (n + 5) [] = [] :=
        List.getD_eq_default _ _ (by simp [testTree])
      simp only [testOps]
      rw [h5]
      simp
  exact filtered_view_is_ancestor_chain.1 (List (List Nat)) Nat testOps testTree
    (fun _ n => n == 4) 4 (fun n => 5 - n) 10 TreeFilterConfig.enabledCfg
    TreeListViewState.new 0
    hrank5 (by intro y; show 5 - y < 10; omega) (by intro y; exact beq_iff_eq)
    hu rfl rfl rfl rfl (by decide)

end TreeListView
